import Mathlib

/-!
Verification of the core of a distributed 3-D stencil halo-exchange library.

The development shallowly embeds, in Lean 4:
  * the geometry primitives (an integer 3-vector, here `Dim3`);
  * the prime-factor partitioner `PFP` (partition.hpp);
  * the scalar-radius local-domain geometry (`halo_pos`, `halo_extent`);
  * the asymmetric-`Radius` variant of `halo_extent`;
  * the communication planner of `DistributedDomain::realize`;
  * the peer-access probe of the `DistributedDomain` constructor;
  * the pack/unpack device kernels of copy.cuh;
  * a state-level model of `DistributedDomain::exchange`.

Machine integers of the source (`int64_t`) are modelled as `ℤ`, `size_t`
values as `ℕ`, and `double` as `ℚ` (all concrete comparisons appearing in
counterexamples are exact in binary floating point, so the `ℚ` model agrees
with the `double` computation there).  Code for whose behaviour no source
file is available (dim3.hpp, radius.hpp, tx.hpp, pack_kernel.cuh,
`LocalDomain::swap`) is modelled from the specification; each such
definition carries a doc comment starting with `Modelled from the spec:`.
-/

/-- Modelled from the spec: dim3.hpp is not available.  "An integer 3-vector
with componentwise arithmetic, wrap-to-bounds, and flatten."  Components are
`int64_t` in the source, modelled as `ℤ`. -/
structure Dim3 where
  x : ℤ
  y : ℤ
  z : ℤ
deriving DecidableEq, Repr

instance : Add Dim3 := ⟨fun a b => ⟨a.x + b.x, a.y + b.y, a.z + b.z⟩⟩

instance : Sub Dim3 := ⟨fun a b => ⟨a.x - b.x, a.y - b.y, a.z - b.z⟩⟩

instance : Neg Dim3 := ⟨fun a => ⟨-a.x, -a.y, -a.z⟩⟩

instance : Mul Dim3 := ⟨fun a b => ⟨a.x * b.x, a.y * b.y, a.z * b.z⟩⟩

/-- Modelled from the spec: componentwise C++ `int64_t` division
(truncation toward zero, `Int.tdiv`); used by `Partition::get_rank`. -/
def Dim3.cdiv (a b : Dim3) : Dim3 :=
  ⟨a.x.tdiv b.x, a.y.tdiv b.y, a.z.tdiv b.z⟩

/-- Modelled from the spec: componentwise C++ `int64_t` remainder
(sign of the dividend, `Int.tmod`); used by `Partition::get_gpu`. -/
def Dim3.cmod (a b : Dim3) : Dim3 :=
  ⟨a.x.tmod b.x, a.y.tmod b.y, a.z.tmod b.z⟩

/-- Modelled from the spec: "wrap-to-bounds"; "a helper that returns values
in `[0, n)` for negative operands", i.e. the nonnegative (Euclidean)
modulus, componentwise. -/
def Dim3.wrap (a n : Dim3) : Dim3 :=
  ⟨a.x % n.x, a.y % n.y, a.z % n.z⟩

/-- Modelled from the spec: "flatten" of an integer 3-vector: the product
of its components (the element count of a box of that extent). -/
def Dim3.flatten (a : Dim3) : ℤ := a.x * a.y * a.z

/-- Predicate: `c` lies in the axis-aligned box with low corner `p` and extent `e`. -/
def inBox (c p e : Dim3) : Prop :=
  p.x ≤ c.x ∧ c.x < p.x + e.x ∧
  p.y ≤ c.y ∧ c.y < p.y + e.y ∧
  p.z ≤ c.z ∧ c.z < p.z + e.z

instance (c p e : Dim3) : Decidable (inBox c p e) := by
  unfold inBox; infer_instance

/-- A direction vector has all components in `{-1, 0, +1}`. -/
def validDir (d : Dim3) : Prop :=
  d.x.natAbs ≤ 1 ∧ d.y.natAbs ≤ 1 ∧ d.z.natAbs ≤ 1

instance (d : Dim3) : Decidable (validDir d) := by
  unfold validDir; infer_instance

/-- A triple of `size_t` values (the unsigned machine words used by the
pack/unpack kernels and by the partitioner's `div_ceil`). -/
structure N3 where
  x : ℕ
  y : ℕ
  z : ℕ
deriving DecidableEq, Repr

instance : Mul N3 := ⟨fun a b => ⟨a.x * b.x, a.y * b.y, a.z * b.z⟩⟩

instance : Add N3 := ⟨fun a b => ⟨a.x + b.x, a.y + b.y, a.z + b.z⟩⟩

/-- The componentwise remainder on `N3` (`Dim3::operator%` at nonnegative
operands, as used by `PFP::local_domain_size`). -/
def N3.mod (a b : N3) : N3 := ⟨a.x % b.x, a.y % b.y, a.z % b.z⟩

/-- Conversion of an `N3` to the signed `Dim3` world. -/
def N3.toDim3 (a : N3) : Dim3 := ⟨(a.x : ℤ), (a.y : ℤ), (a.z : ℤ)⟩

/-! ## Prime-factor partitioner (partition.hpp, class `PFP`) -/

/-- Embeds `PFP::div_ceil`: `ceil(n/d)` on `size_t`, computed as `(n + d - 1) / d`. -/
def div_ceil (n d : ℕ) : ℕ := (n + d - 1) / d

/-- Embeds `PFP::cubeness`: `min(x,y,z) / max(x,y,z)`.  The source computes on
`double`; modelled on `ℚ` (exact at every value reached in this file). -/
def cubeness (x y z : ℚ) : ℚ :=
  let smallest := min x (min y z)
  let largest := max x (max y z)
  smallest / largest

/-- Descending insertion of one element (helper for `sortDesc`). -/
def insertDesc (a : ℕ) : List ℕ → List ℕ
  | [] => [a]
  | b :: l => if b < a then a :: b :: l else b :: insertDesc a l

/-- Models the source's `std::sort(result.begin(), result.end(), [](a,b){ return b < a; })`:
sorts a list of naturals into descending order. -/
def sortDesc : List ℕ → List ℕ
  | [] => []
  | a :: l => insertDesc a (sortDesc l)

/-- The `while (n % 2 == 0)` loop of `PFP::prime_factors`: divides out all
factors of 2.  The C++ loop diverges at `n = 0`; the model's explicit fuel
(instantiated with `n` itself, which bounds the iteration count for every
`n ≥ 1`) makes the function total and structurally recursive. -/
def factorTwos : ℕ → ℕ → List ℕ × ℕ
  | 0, n => ([], n)
  | fuel + 1, n =>
    if n % 2 = 0 ∧ n ≠ 0 then
      let r := factorTwos fuel (n / 2)
      (2 :: r.1, r.2)
    else ([], n)

/-- The inner `while (n % i == 0)` loop of `PFP::prime_factors`. -/
def divOut (i : ℕ) : ℕ → ℕ → List ℕ × ℕ
  | 0, n => ([], n)
  | fuel + 1, n =>
    if n % i = 0 ∧ n ≠ 0 ∧ 2 ≤ i then
      let r := divOut i fuel (n / i)
      (i :: r.1, r.2)
    else ([], n)

/-- The `for (int i = 3; i <= sqrt(n); i += 2)` loop of
`PFP::prime_factors`.  The bound `i <= sqrt(n)` (on `double`) is modelled as
`i * i ≤ n`, which agrees with it at every integer reached in this file. -/
def oddFactorLoop : ℕ → ℕ → ℕ → List ℕ × ℕ
  | 0, _, n => ([], n)
  | fuel + 1, i, n =>
    if i * i ≤ n then
      let r := divOut i n n
      let s := oddFactorLoop fuel (i + 2) r.2
      (r.1 ++ s.1, s.2)
    else ([], n)

/-- Embeds `PFP::prime_factors`: all 2s, then ascending odd prime factors, then the
remaining factor if it exceeds 2, finally sorted into descending order. -/
def prime_factors (n : ℕ) : List ℕ :=
  let t := factorTwos n n
  let o := oddFactorLoop t.2 3 t.2
  let rest := if 2 < o.2 then [o.2] else []
  sortDesc (t.1 ++ o.1 ++ rest)

/-- The mutable state of the `PFP` constructor: the global size and the
running `gpuDim_`, `rankDim_`, `domSize_` (all values are nonnegative in the
source, so the components are modelled as `ℕ`). -/
structure PFPState where
  size : N3
  gpuDim : N3
  rankDim : N3
  domSize : N3
deriving DecidableEq, Repr

/-- One iteration of the first splitting loop in the `PFP` constructor
(the loop over the prime factors of the rank count), for prime factor
`amt`.  The branch structure — including the source's comparison of
`ySplitCubeness` against `max(xSplitCubeness, ySplitCubeness)` in the
second branch — is reproduced exactly. -/
def splitStepRank (st : PFPState) (amt : ℕ) : PFPState :=
  if amt < 2 then st
  else
    let xSplitCubeness : ℚ :=
      cubeness (div_ceil st.domSize.x amt) st.domSize.y st.domSize.z
    let ySplitCubeness : ℚ :=
      cubeness st.domSize.x (div_ceil st.domSize.y amt) st.domSize.z
    let zSplitCubeness : ℚ :=
      cubeness st.domSize.x st.domSize.y (div_ceil st.domSize.z amt)
    if xSplitCubeness ≥ max ySplitCubeness zSplitCubeness then
      { st with domSize := ⟨div_ceil st.domSize.x amt, st.domSize.y, st.domSize.z⟩,
                rankDim := ⟨st.rankDim.x * amt, st.rankDim.y, st.rankDim.z⟩ }
    else if ySplitCubeness ≥ max xSplitCubeness ySplitCubeness then
      { st with domSize := ⟨st.domSize.x, div_ceil st.domSize.y amt, st.domSize.z⟩,
                rankDim := ⟨st.rankDim.x, st.rankDim.y * amt, st.rankDim.z⟩ }
    else
      { st with domSize := ⟨st.domSize.x, st.domSize.y, div_ceil st.domSize.z amt⟩,
                rankDim := ⟨st.rankDim.x, st.rankDim.y, st.rankDim.z * amt⟩ }

/-- One iteration of the second splitting loop in the `PFP` constructor
(the loop over the prime factors of the GPU count): identical to
`splitStepRank` except that it multiplies `gpuDim_`, exactly as the source
duplicates the loop body. -/
def splitStepGpu (st : PFPState) (amt : ℕ) : PFPState :=
  if amt < 2 then st
  else
    let xSplitCubeness : ℚ :=
      cubeness (div_ceil st.domSize.x amt) st.domSize.y st.domSize.z
    let ySplitCubeness : ℚ :=
      cubeness st.domSize.x (div_ceil st.domSize.y amt) st.domSize.z
    let zSplitCubeness : ℚ :=
      cubeness st.domSize.x st.domSize.y (div_ceil st.domSize.z amt)
    if xSplitCubeness ≥ max ySplitCubeness zSplitCubeness then
      { st with domSize := ⟨div_ceil st.domSize.x amt, st.domSize.y, st.domSize.z⟩,
                gpuDim := ⟨st.gpuDim.x * amt, st.gpuDim.y, st.gpuDim.z⟩ }
    else if ySplitCubeness ≥ max xSplitCubeness ySplitCubeness then
      { st with domSize := ⟨st.domSize.x, div_ceil st.domSize.y amt, st.domSize.z⟩,
                gpuDim := ⟨st.gpuDim.x, st.gpuDim.y * amt, st.gpuDim.z⟩ }
    else
      { st with domSize := ⟨st.domSize.x, st.domSize.y, div_ceil st.domSize.z amt⟩,
                gpuDim := ⟨st.gpuDim.x, st.gpuDim.y, st.gpuDim.z * amt⟩ }

/-- The `PFP` constructor: split by the prime factors of the rank count,
then by the prime factors of the GPU count. -/
def pfp (domSize : N3) (ranks gpus : ℕ) : PFPState :=
  let st0 : PFPState := ⟨domSize, ⟨1, 1, 1⟩, ⟨1, 1, 1⟩, domSize⟩
  let st1 := (prime_factors ranks).foldl splitStepRank st0
  (prime_factors gpus).foldl splitStepGpu st1

/-- Embeds `PFP::local_domain_size`: start from `domSize_`, and on each axis
subtract 1 when the remainder of the global size by the grid extent is
nonzero and the axis index is at least that remainder.  Indices and the
result are `Dim3` (`int64_t`). -/
def local_domain_size (st : PFPState) (idx : Dim3) : Dim3 :=
  let rem := st.size.mod (st.rankDim * st.gpuDim)
  ⟨(st.domSize.x : ℤ) - (if rem.x ≠ 0 ∧ idx.x ≥ (rem.x : ℤ) then 1 else 0),
   (st.domSize.y : ℤ) - (if rem.y ≠ 0 ∧ idx.y ≥ (rem.y : ℤ) then 1 else 0),
   (st.domSize.z : ℤ) - (if rem.z ≠ 0 ∧ idx.z ≥ (rem.z : ℤ) then 1 else 0)⟩

/-- Embeds `PFP::get_rank`: row-major linearization of `idx / gpuDim_` in the rank
grid. -/
def get_rank (st : PFPState) (idx : Dim3) : ℤ :=
  let rankIdx := idx.cdiv st.gpuDim.toDim3
  rankIdx.x + rankIdx.y * (st.rankDim.x : ℤ) + rankIdx.z * (st.rankDim.y : ℤ) * (st.rankDim.x : ℤ)

/-- Embeds `PFP::get_gpu`: row-major linearization of `idx % gpuDim_` in the gpu
grid. -/
def get_gpu (st : PFPState) (idx : Dim3) : ℤ :=
  let gpuIdx := idx.cmod st.gpuDim.toDim3
  gpuIdx.x + gpuIdx.y * (st.gpuDim.x : ℤ) + gpuIdx.z * (st.gpuDim.y : ℤ) * (st.gpuDim.x : ℤ)

/-- The axis split by one `splitStep` (observable through `rankDim`). -/
inductive Axis where
  | x
  | y
  | z
deriving DecidableEq, Repr

/-- The axis the source's branch structure chooses for a factor `amt`
(first branch x, second branch y, else z), extracted verbatim from
`splitStep`. -/
def codeChoice (dx dy dz amt : ℕ) : Axis :=
  let xSplitCubeness : ℚ := cubeness (div_ceil dx amt) dy dz
  let ySplitCubeness : ℚ := cubeness dx (div_ceil dy amt) dz
  let zSplitCubeness : ℚ := cubeness dx dy (div_ceil dz amt)
  if xSplitCubeness ≥ max ySplitCubeness zSplitCubeness then Axis.x
  else if ySplitCubeness ≥ max xSplitCubeness ySplitCubeness then Axis.y
  else Axis.z

/-- Modelled from the spec: "choose the axis whose post-split cubeness is
largest (ties broken x>y>z)". -/
def specChoice (dx dy dz amt : ℕ) : Axis :=
  let xSplitCubeness : ℚ := cubeness (div_ceil dx amt) dy dz
  let ySplitCubeness : ℚ := cubeness dx (div_ceil dy amt) dz
  let zSplitCubeness : ℚ := cubeness dx dy (div_ceil dz amt)
  if xSplitCubeness ≥ max ySplitCubeness zSplitCubeness then Axis.x
  else if ySplitCubeness ≥ zSplitCubeness then Axis.y
  else Axis.z

/-- Componentwise sum of `local_domain_size` over every index of the full
`rankDim * gpuDim` grid (the literal reading of testable property 4). -/
def sum_local_sizes (st : PFPState) : Dim3 :=
  let n := st.rankDim * st.gpuDim
  ((List.range n.z).map fun iz =>
    ((List.range n.y).map fun iy =>
      ((List.range n.x).map fun ix =>
        local_domain_size st ⟨(ix : ℤ), (iy : ℤ), (iz : ℤ)⟩).foldl (· + ·) ⟨0,0,0⟩).foldl (· + ·) ⟨0,0,0⟩).foldl (· + ·) ⟨0,0,0⟩

/-! ## Local-domain geometry (scalar radius, local_domain.cuh) -/

/-- One axis of `LocalDomain::halo_pos` (scalar-radius version): position of
the halo (`halo = true`) or interior (`halo = false`) region on the `dc`
side of an axis with compute extent `szc` and radius `r`.  The source's
`if/else if` chain handles `1`, `-1`, `0` in that order (other values are
unreachable under its asserts and fall to the `0` case here). -/
def halo_pos_axis (dc szc r : ℤ) (halo : Bool) : ℤ :=
  if dc = 1 then szc + (if halo then r else 0)
  else if dc = -1 then (if halo then 0 else r)
  else r

/-- Embeds `LocalDomain::halo_pos` (scalar-radius version): position of the halo
or interior region on the `dir` side, relative to the allocation origin. -/
def halo_pos (dir : Dim3) (halo : Bool) (sz : Dim3) (r : ℤ) : Dim3 :=
  ⟨halo_pos_axis dir.x sz.x r halo,
   halo_pos_axis dir.y sz.y r halo,
   halo_pos_axis dir.z sz.z r halo⟩

/-- Embeds `LocalDomain::halo_extent(dir, sz, radius)` (scalar-radius version):
`radius` on the axes where `dir` is nonzero, the compute extent elsewhere. -/
def halo_extent (dir sz : Dim3) (r : ℤ) : Dim3 :=
  ⟨if dir.x ≠ 0 then r else sz.x,
   if dir.y ≠ 0 then r else sz.y,
   if dir.z ≠ 0 then r else sz.z⟩

/-- Embeds `LocalDomain::raw_size` (scalar-radius version): compute extent plus
two radii on every axis. -/
def raw_size (sz : Dim3) (r : ℤ) : Dim3 := ⟨sz.x + 2 * r, sz.y + 2 * r, sz.z + 2 * r⟩

/-! ## Asymmetric radius (radius.hpp is not under src; `Radius` modelled
from the spec: "a per-axis, per-direction halo thickness (6 nonnegative
integers)") -/

/-- Modelled from the spec: the asymmetric stencil radius, six nonnegative
thicknesses, one per axis and side. -/
structure Radius where
  xneg : ℕ
  xpos : ℕ
  yneg : ℕ
  ypos : ℕ
  zneg : ℕ
  zpos : ℕ
deriving DecidableEq, Repr

/-- Modelled from the spec: `Radius::x(dir)`, the x-axis thickness on the
side selected by the sign of `dir` (callers in the source only pass
nonzero `dir`; the `0` case is arbitrary here). -/
def Radius.xdir (r : Radius) (d : ℤ) : ℤ :=
  if d < 0 then (r.xneg : ℤ) else if 0 < d then (r.xpos : ℤ) else 0

/-- Modelled from the spec: `Radius::y(dir)`. -/
def Radius.ydir (r : Radius) (d : ℤ) : ℤ :=
  if d < 0 then (r.yneg : ℤ) else if 0 < d then (r.ypos : ℤ) else 0

/-- Modelled from the spec: `Radius::z(dir)`. -/
def Radius.zdir (r : Radius) (d : ℤ) : ℤ :=
  if d < 0 then (r.zneg : ℤ) else if 0 < d then (r.zpos : ℤ) else 0

/-- Embeds `LocalDomain::halo_extent(dir, sz, radius)` (asymmetric-`Radius`
version): `radius.x(dir.x)` on the axes where `dir` is nonzero, the
compute extent elsewhere. -/
def halo_extentR (dir sz : Dim3) (r : Radius) : Dim3 :=
  ⟨if dir.x = 0 then sz.x else r.xdir dir.x,
   if dir.y = 0 then sz.y else r.ydir dir.y,
   if dir.z = 0 then sz.z else r.zdir dir.z⟩

/-! ## Communication planner (`DistributedDomain::realize`) -/

/-- The sender variant `DistributedDomain::realize` instantiates for one
direction. -/
inductive SenderKind where
  /-- same rank, peer access: `RegionCopier` -/
  | regionCopier
  /-- same rank, no peer access: `PackMemcpyCopier` -/
  | packMemcpyCopier
  /-- colocated rank: `RegionSender` -/
  | regionSenderColocated
  /-- remote rank: `RegionSender` -/
  | regionSenderRemote
deriving DecidableEq, Repr

/-- The receiver variant `DistributedDomain::realize` instantiates for one
direction. -/
inductive RecverKind where
  /-- colocated rank: `RegionRecver` -/
  | regionRecverColocated
  /-- remote rank: `RegionRecver` -/
  | regionRecverRemote
deriving DecidableEq, Repr

/-- The inputs the planner consults for one local subdomain: the partition,
this process's rank, the colocated-rank set, the logical-gpu to CUDA-device
map of this rank and of the partition, and the pairwise peer-access matrix. -/
structure PlanEnv where
  part : PFPState
  myRank : ℤ
  colocated : ℤ → Bool
  cudaId : ℤ → ℕ
  peerAccess : ℕ → ℕ → Bool

/-- The sender cell the plan of `DistributedDomain::realize` holds at
direction `dir` for the subdomain at `myIdx`: `none` for the zero direction
(the loop `continue`s, leaving the initial `nullptr`), otherwise the variant
chosen from the destination neighbor `(myIdx + dir).wrap(rankDim * gpuDim)`. -/
def planSender (env : PlanEnv) (myIdx dir : Dim3) : Option SenderKind :=
  if dir = ⟨0, 0, 0⟩ then none
  else
    let gridSz := (env.part.rankDim * env.part.gpuDim).toDim3
    let dstIdx := (myIdx + dir).wrap gridSz
    let dstRank := get_rank env.part dstIdx
    let dstGPU := get_gpu env.part dstIdx
    if env.myRank = dstRank then
      if env.peerAccess (env.cudaId (get_gpu env.part myIdx)) (env.cudaId dstGPU) then
        some SenderKind.regionCopier
      else
        some SenderKind.packMemcpyCopier
    else if env.colocated dstRank then
      some SenderKind.regionSenderColocated
    else
      some SenderKind.regionSenderRemote

/-- The receiver cell the plan of `DistributedDomain::realize` holds at
direction `dir` for the subdomain at `myIdx`: `none` for the zero direction
and for a source neighbor `(myIdx - dir).wrap(rankDim * gpuDim)` owned by
this rank (both peer branches assign `nullptr`), otherwise a `RegionRecver`. -/
def planRecver (env : PlanEnv) (myIdx dir : Dim3) : Option RecverKind :=
  if dir = ⟨0, 0, 0⟩ then none
  else
    let gridSz := (env.part.rankDim * env.part.gpuDim).toDim3
    let srcIdx := (myIdx - dir).wrap gridSz
    let srcRank := get_rank env.part srcIdx
    if env.myRank = srcRank then none
    else if env.colocated srcRank then some RecverKind.regionRecverColocated
    else some RecverKind.regionRecverRemote

/-! ## Peer-access probe (`DistributedDomain` constructor) -/

/-- Value of `cudaSuccess`. -/
def cudaSuccess : ℕ := 0

/-- Value of `cudaErrorInvalidDevice`. -/
def cudaErrorInvalidDevice : ℕ := 101

/-- Value of `cudaErrorPeerAccessAlreadyEnabled`. -/
def cudaErrorPeerAccessAlreadyEnabled : ℕ := 704

/-- Outcome of one `(src, dst)` iteration of the peer-enable loop in the
`DistributedDomain` constructor: the recorded `peerAccess_[src][dst]` entry
and whether the iteration reached `assert(0)`.  `err` is the status
`cudaDeviceEnablePeerAccess` returned for this pair.  The `else if` of the
source tests the *constant* `cudaErrorInvalidDevice` (not a comparison with
`err`), reproduced here verbatim. -/
def peerPairOutcome (err : ℕ) : Bool × Bool :=
  if err = cudaSuccess ∨ err = cudaErrorPeerAccessAlreadyEnabled then
    (true, false)
  else if cudaErrorInvalidDevice ≠ 0 then
    (false, false)
  else
    (false, true)

/-- The `peerAccess_[src][dst]` entry the constructor records: `true` on the
diagonal, otherwise the outcome for the status returned by
`cudaDeviceEnablePeerAccess`.  The loop body is independent across pairs, so
the matrix is presented as a function of the pair. -/
def peerAccessEntry (err : ℕ → ℕ → ℕ) (src dst : ℕ) : Bool :=
  if src = dst then true else (peerPairOutcome (err src dst)).1

/-- Whether any iteration of the peer-enable double loop over
`deviceCount × deviceCount` reaches `assert(0)` (which would terminate
construction). -/
def peerAborts (deviceCount : ℕ) (err : ℕ → ℕ → ℕ) : Bool :=
  (List.range deviceCount).any fun src =>
    (List.range deviceCount).any fun dst =>
      if src = dst then false else (peerPairOutcome (err src dst)).2

/-! ## Field pointer swap (`LocalDomain::swap` is declared in
local_domain.cuh but its body is not under src; modelled from the spec) -/

/-- The per-field device pointers of one local subdomain (addresses
modelled as `ℕ`): each registered field holds a `curr` and a `next`
allocation pointer. -/
structure LDPointers where
  currDataPtrs : List ℕ
  nextDataPtrs : List ℕ
deriving DecidableEq, Repr

/-- Modelled from the spec: "`swap` exchanges `curr` and `next` pointers"
of every field of the subdomain (the same exchange `swap(Array&, Array&)`
in array.hpp performs on its `size_`/`data_` members). -/
def ldSwap (ld : LDPointers) : LDPointers :=
  ⟨ld.nextDataPtrs, ld.currDataPtrs⟩

/-- The `DistributedDomain`-level swap: per-subdomain pointer swap of every
local subdomain. -/
def ddSwap (doms : List LDPointers) : List LDPointers := doms.map ldSwap

/-- The `size_`/`data_` members of a CPU `Array<T>` (array.hpp). -/
structure StencilArray where
  size : Dim3
  data : ℕ
deriving DecidableEq, Repr

/-- Embeds `swap(Array &a, Array &b)` from array.hpp: swaps the `size_` and
`data_` members of the two arrays, returning the new `(a, b)` pair. -/
def arraySwap (a b : StencilArray) : StencilArray × StencilArray :=
  (⟨b.size, b.data⟩, ⟨a.size, a.data⟩)

/-! ## Pack and unpack kernels (copy.cuh; `grid_pack` itself lives in
pack_kernel.cuh, which is not under src, and is modelled from the spec) -/

/-- A byte-addressed memory (device allocation or staging buffer). -/
def Mem : Type := ℕ → Fin 256

/-- Write one byte. -/
def memUpd (m : Mem) (a : ℕ) (v : Fin 256) : Mem :=
  fun a2 => if a2 = a then v else m a2

/-- Little-endian load of a `k`-byte machine word (the `uint32_t`/`uint64_t`
reads of the element-size fast paths). -/
def loadLE : ℕ → Mem → ℕ → ℕ
  | 0, _, _ => 0
  | k + 1, m, a => (m a).val + 256 * loadLE k m (a + 1)

/-- Little-endian store of a `k`-byte machine word (the `uint32_t`/`uint64_t`
writes of the element-size fast paths). -/
def storeLE : ℕ → Mem → ℕ → ℕ → Mem
  | 0, m, _, _ => m
  | k + 1, m, a, v => storeLE k (memUpd m a ⟨v % 256, Nat.mod_lt v (by omega)⟩) (a + 1) (v / 256)

/-- Embeds `memcpy(&dst[da], &src[sa], k)`: the generic byte-copy path. -/
def byteCopy : ℕ → Mem → ℕ → Mem → ℕ → Mem
  | 0, _, _, dst, _ => dst
  | k + 1, src, sa, dst, da => byteCopy k src (sa + 1) (memUpd dst da (src sa)) (da + 1)

/-- Copy of one element of `e` bytes, with the source's element-size
dispatch: a `uint32_t` word store at `e = 4`, a `uint64_t` word store at
`e = 8`, otherwise a `memcpy` of `e` bytes. -/
def elemCopy (e : ℕ) (src : Mem) (sa : ℕ) (dst : Mem) (da : ℕ) : Mem :=
  if e = 4 then storeLE 4 dst da (loadLE 4 src sa)
  else if e = 8 then storeLE 8 dst da (loadLE 8 src sa)
  else byteCopy e src sa dst da

/-- The aggregate effect of one kernel: one `elemCopy` per `(srcAddr,
dstAddr)` pair.  The device threads partition the pairs; every pair is
processed exactly once and the written element regions are pairwise
disjoint, so the launch is modelled as a left fold. -/
def multiCopy (e : ℕ) (src : Mem) (ps : List (ℕ × ℕ)) (dst : Mem) : Mem :=
  ps.foldl (fun d p => elemCopy e src p.1 d p.2) dst

/-- All offsets of a 3-D extent, in the kernel's z/y/x loop nesting. -/
def idxList (ext : N3) : List N3 :=
  (List.range ext.z).flatMap fun z =>
    (List.range ext.y).flatMap fun y =>
      (List.range ext.x).map fun x => (⟨x, y, z⟩ : N3)

/-- The row-major linear index `c.z * (s.y * s.x) + c.y * s.x + c.x` used by
both kernels (`oi`/`ii` in the source). -/
def lin (s c : N3) : ℕ := c.z * (s.y * s.x) + c.y * s.x + c.x

/-- The `(srcAddr, dstAddr)` pairs of one `grid_pack` launch: element `i` of
the region at `pos` in an allocation of pitch `srcSize` goes to linear slot
`lin ext i` of the contiguous buffer. -/
def packPairs (srcSize pos ext : N3) (e : ℕ) : List (ℕ × ℕ) :=
  (idxList ext).map fun i => (lin srcSize (pos + i) * e, lin ext i * e)

/-- Modelled from the spec: `grid_pack` (pack_kernel.cuh is not under src):
"dst[linear i] ← src[pos + i] for all i ∈ [0, ext), src laid out with pitch
srcSize, element size e", with the element-size fast paths of §4.3. -/
def grid_pack (srcSize pos ext : N3) (e : ℕ) (src buf : Mem) : Mem :=
  multiCopy e src (packPairs srcSize pos ext e) buf

/-- The `(srcAddr, dstAddr)` pairs of one `grid_unpack` launch: linear slot
`lin ext i` of the contiguous buffer goes to element `i` of the region at
`pos` in an allocation of pitch `dstSize`. -/
def unpackPairs (dstSize pos ext : N3) (e : ℕ) : List (ℕ × ℕ) :=
  (idxList ext).map fun i => (lin ext i * e, lin dstSize (pos + i) * e)

/-- Embeds `grid_unpack` (copy.cuh): the inverse scatter, `dst[pos + i] ←
src[linear i]`, with the same element-size fast paths. -/
def grid_unpack (dstSize pos ext : N3) (e : ℕ) (buf dst : Mem) : Mem :=
  multiCopy e buf (unpackPairs dstSize pos ext e) dst

/-! ## Exchange (`DistributedDomain::exchange`).  The planner routing is
from distributed_domain.hpp; the per-transport data movement (tx.hpp is not
under src) is modelled from the spec: a sender for direction `d` packs the
interior region of direction `d` of the source subdomain (row-major over
its extent) and the receiver unpacks that buffer into its halo region of
direction `-d`. -/

/-- The distributed contents: one value per (subdomain index, field index,
cell of the field's allocation).  A value stands for the `elemSize` bytes
of one element. -/
def State (V : Type) : Type := Dim3 → ℕ → Dim3 → V

/-- Row-major linear index of offset `o` within a box of extent `ext`
(the order in which a region is packed into a contiguous message). -/
def linZ (ext o : Dim3) : ℤ := o.z * (ext.y * ext.x) + o.y * ext.x + o.x

/-- Inverse of `linZ`: the offset within a box of extent `ext` that a
linear slot decodes to. -/
def unlinZ (ext : Dim3) (n : ℤ) : Dim3 :=
  ⟨n % ext.x, (n / ext.x) % ext.y, n / (ext.x * ext.y)⟩

/-- The fixed data of one exchange: the product grid extent
`rankDim * gpuDim`, the per-subdomain compute size, and the scalar radius. -/
structure XEnv where
  grid : Dim3
  sizes : Dim3 → Dim3
  r : ℤ

/-- Modelled from the spec: the effect of the transport pair for source
subdomain `p.1` and send direction `p.2`.  The destination subdomain is
`(src + dir).wrap(grid)` (`DistributedDomain::realize`).  The sender packs
the interior region of direction `dir` of the source, row-major over the
sender's `halo_extent`; the receiver unpacks the message into its halo
region of direction `-dir`, row-major over its own `halo_extent`. -/
def sendOp {V : Type} (env : XEnv) (st : State V) (p : Dim3 × Dim3) : State V :=
  let s := p.1
  let d := p.2
  let t := (s + d).wrap env.grid
  let posS := halo_pos d false (env.sizes s) env.r
  let extS := halo_extent d (env.sizes s) env.r
  let posR := halo_pos (-d) true (env.sizes t) env.r
  let extR := halo_extent (-d) (env.sizes t) env.r
  fun i f c =>
    if i = t ∧ inBox c posR extR then
      st s f (posS + unlinZ extS (linZ extR (c - posR)))
    else st i f c

/-- The 26 non-zero directions, in the loop order of
`DistributedDomain::realize` (the zero direction is skipped by `continue`). -/
def dirList : List Dim3 :=
  (([-1, 0, 1] : List ℤ).flatMap fun x =>
    ([-1, 0, 1] : List ℤ).flatMap fun y =>
      ([-1, 0, 1] : List ℤ).map fun z => (⟨x, y, z⟩ : Dim3)).filter
    (fun d => d ≠ ⟨0, 0, 0⟩)

/-- Every subdomain index of the product grid. -/
def gridIndices (g : Dim3) : List Dim3 :=
  (List.range g.z.toNat).flatMap fun iz =>
    (List.range g.y.toNat).flatMap fun iy =>
      (List.range g.x.toNat).map fun (ix : ℕ) => (⟨(ix : ℤ), (iy : ℤ), (iz : ℤ)⟩ : Dim3)

/-- All `(subdomain, direction)` transports one `exchange` issues. -/
def exchangeOps (g : Dim3) : List (Dim3 × Dim3) :=
  (gridIndices g).flatMap fun s => dirList.map fun d => (s, d)

/-- Embeds `DistributedDomain::exchange`: every transport sends and completes; the
written halo rectangles are pairwise disjoint and every value read is from
an interior region no transport writes, so the concurrent round is modelled
as a left fold over the transports. -/
def exchange {V : Type} (env : XEnv) (st : State V) : State V :=
  (exchangeOps env.grid).foldl (sendOp env) st

/-- The `peerAccess_` matrix as the constructor's double loop builds it:
starting from `deviceCount × deviceCount` entries of `false`, each
`(src, dst)` iteration records `true` on the diagonal and otherwise the
outcome for the status `cudaDeviceEnablePeerAccess` returned. -/
def peerMatrix (deviceCount : ℕ) (err : ℕ → ℕ → ℕ) : ℕ → ℕ → Bool :=
  (List.range deviceCount).foldl
    (fun m src =>
      (List.range deviceCount).foldl
        (fun m2 dst => fun s d =>
          if s = src ∧ d = dst then
            (if src = dst then true else (peerPairOutcome (err src dst)).1)
          else m2 s d)
        m)
    (fun _ _ => false)

/-- The loop invariant of the `PFP` constructor: on every axis the running
`domSize_` is the ceiling of the global extent by the running grid extent
`rankDim_ * gpuDim_`, and the grid extent is positive. -/
def pfpInv (st : PFPState) : Prop :=
  st.domSize.x = div_ceil st.size.x (st.rankDim.x * st.gpuDim.x) ∧
  1 ≤ st.rankDim.x * st.gpuDim.x ∧
  st.domSize.y = div_ceil st.size.y (st.rankDim.y * st.gpuDim.y) ∧
  1 ≤ st.rankDim.y * st.gpuDim.y ∧
  st.domSize.z = div_ceil st.size.z (st.rankDim.z * st.gpuDim.z) ∧
  1 ≤ st.rankDim.z * st.gpuDim.z

/-! # Theorems -/

theorem Dim3.neg_x (d : Dim3) : (-d).x = -d.x := rfl

theorem Dim3.neg_y (d : Dim3) : (-d).y = -d.y := rfl

theorem Dim3.neg_z (d : Dim3) : (-d).z = -d.z := rfl

theorem Dim3.add_x (a b : Dim3) : (a + b).x = a.x + b.x := rfl

theorem Dim3.add_y (a b : Dim3) : (a + b).y = a.y + b.y := rfl

theorem Dim3.add_z (a b : Dim3) : (a + b).z = a.z + b.z := rfl

theorem Dim3.sub_x (a b : Dim3) : (a - b).x = a.x - b.x := rfl

theorem Dim3.sub_y (a b : Dim3) : (a - b).y = a.y - b.y := rfl

theorem Dim3.sub_z (a b : Dim3) : (a - b).z = a.z - b.z := rfl

theorem Dim3.ext_iff2 (a b : Dim3) : a = b ↔ a.x = b.x ∧ a.y = b.y ∧ a.z = b.z := by
  constructor
  · rintro rfl; exact ⟨rfl, rfl, rfl⟩
  · rintro ⟨h1, h2, h3⟩; cases a; cases b; simp_all

/-- A side selector applied to `-a` under equal side thicknesses. -/
theorem sel_neg (m p : ℕ) (h : m = p) (a : ℤ) :
    (if -a < 0 then (m : ℤ) else if 0 < -a then (p : ℤ) else 0) =
      (if a < 0 then (m : ℤ) else if 0 < a then (p : ℤ) else 0) := by
  subst h; split_ifs <;> omega

/-- C4 counterexample: with the asymmetric-`Radius` overload of
`halo_extent` and a radius whose `-x` thickness (2) differs from its `+x`
thickness (1), the flattened extents of direction `(1,0,0)` and of its
opposite differ. -/
theorem C4_flatten_asymmetric_counterexample :
    (halo_extentR ⟨1, 0, 0⟩ ⟨1, 1, 1⟩ ⟨2, 1, 0, 0, 0, 0⟩).flatten ≠
      (halo_extentR ⟨-1, 0, 0⟩ ⟨1, 1, 1⟩ ⟨2, 1, 0, 0, 0, 0⟩).flatten := by
  decide

/-- C4 (amended): for every direction `d`, compute size `sz` and radius,
`halo_extent(d, sz, R).flatten() = halo_extent(-d, sz, R).flatten()` holds
for the scalar-radius overload unconditionally, and for the
asymmetric-`Radius` overload whenever the radius is symmetric per axis;
an asymmetric radius can make the two flattened extents differ. -/
theorem C4_halo_extent_flatten_flip (d sz : Dim3) (r : ℤ) (R : Radius)
    (hx : R.xneg = R.xpos) (hy : R.yneg = R.ypos) (hz : R.zneg = R.zpos) :
    (halo_extent d sz r).flatten = (halo_extent (-d) sz r).flatten ∧
    (halo_extentR d sz R).flatten = (halo_extentR (-d) sz R).flatten := by
  constructor
  · unfold halo_extent Dim3.flatten
    simp only [Dim3.neg_x, Dim3.neg_y, Dim3.neg_z, neg_ne_zero]
  · have ex : R.xdir (-d.x) = R.xdir d.x := sel_neg _ _ hx d.x
    have ey : R.ydir (-d.y) = R.ydir d.y := sel_neg _ _ hy d.y
    have ez : R.zdir (-d.z) = R.zdir d.z := sel_neg _ _ hz d.z
    unfold halo_extentR Dim3.flatten
    simp only [Dim3.neg_x, Dim3.neg_y, Dim3.neg_z, neg_eq_zero, ex, ey, ez]

/-- C4 witness: the amended statement at direction `(1,0,0)`, compute size
`(5,4,3)`, scalar radius 2, and the symmetric radius `(2,2,1,1,3,3)`. -/
theorem C4_halo_extent_flatten_flip_witness :
    (halo_extent ⟨1, 0, 0⟩ ⟨5, 4, 3⟩ 2).flatten =
      (halo_extent (-⟨1, 0, 0⟩) ⟨5, 4, 3⟩ 2).flatten ∧
    (halo_extentR ⟨1, 0, 0⟩ ⟨5, 4, 3⟩ ⟨2, 2, 1, 1, 3, 3⟩).flatten =
      (halo_extentR (-⟨1, 0, 0⟩) ⟨5, 4, 3⟩ ⟨2, 2, 1, 1, 3, 3⟩).flatten :=
  C4_halo_extent_flatten_flip ⟨1, 0, 0⟩ ⟨5, 4, 3⟩ 2 ⟨2, 2, 1, 1, 3, 3⟩ rfl rfl rfl

theorem ldSwap_involutive (ld : LDPointers) : ldSwap (ldSwap ld) = ld := rfl

/-- C7: `swap` maps every subdomain through the `curr`/`next` pointer
exchange: position `i` of the swapped list holds the pointer-swapped
subdomain, its `curr` list is the old `next` list (so each field's `curr`
pointer changes whenever it differed from the old `next` pointer), and two
consecutive swaps restore the original pointers of every subdomain. -/
theorem C7_swap_exchanges_pointers (doms : List LDPointers) (i k : ℕ)
    (hi : i < doms.length)
    (hk : k < (doms.get ⟨i, hi⟩).currDataPtrs.length)
    (hk2 : k < (doms.get ⟨i, hi⟩).nextDataPtrs.length)
    (hne : (doms.get ⟨i, hi⟩).currDataPtrs.get ⟨k, hk⟩ ≠
      (doms.get ⟨i, hi⟩).nextDataPtrs.get ⟨k, hk2⟩) :
    (ddSwap doms)[i]? = some (ldSwap (doms.get ⟨i, hi⟩)) ∧
    (ldSwap (doms.get ⟨i, hi⟩)).currDataPtrs = (doms.get ⟨i, hi⟩).nextDataPtrs ∧
    (ldSwap (doms.get ⟨i, hi⟩)).nextDataPtrs = (doms.get ⟨i, hi⟩).currDataPtrs ∧
    (ldSwap (doms.get ⟨i, hi⟩)).currDataPtrs.get ⟨k, hk2⟩ ≠
      (doms.get ⟨i, hi⟩).currDataPtrs.get ⟨k, hk⟩ ∧
    ddSwap (ddSwap doms) = doms := by
  refine ⟨?_, rfl, rfl, ?_, ?_⟩
  · unfold ddSwap
    rw [List.getElem?_map, List.getElem?_eq_getElem hi]
    rfl
  · exact fun h => hne h.symm
  · unfold ddSwap
    rw [List.map_map]
    have : (ldSwap ∘ ldSwap) = id := funext fun ld => ldSwap_involutive ld
    rw [this, List.map_id]

/-- C7 witness: two subdomains, two fields each, with distinct `curr`/`next`
pointers. -/
theorem C7_swap_exchanges_pointers_witness :
    (ddSwap [⟨[10, 11], [20, 21]⟩, ⟨[30], [40]⟩])[0]? =
      some (ldSwap (([⟨[10, 11], [20, 21]⟩, ⟨[30], [40]⟩] : List LDPointers).get ⟨0, by decide⟩)) ∧
    (ldSwap (([⟨[10, 11], [20, 21]⟩, ⟨[30], [40]⟩] : List LDPointers).get ⟨0, by decide⟩)).currDataPtrs =
      (([⟨[10, 11], [20, 21]⟩, ⟨[30], [40]⟩] : List LDPointers).get ⟨0, by decide⟩).nextDataPtrs ∧
    (ldSwap (([⟨[10, 11], [20, 21]⟩, ⟨[30], [40]⟩] : List LDPointers).get ⟨0, by decide⟩)).nextDataPtrs =
      (([⟨[10, 11], [20, 21]⟩, ⟨[30], [40]⟩] : List LDPointers).get ⟨0, by decide⟩).currDataPtrs ∧
    (ldSwap (([⟨[10, 11], [20, 21]⟩, ⟨[30], [40]⟩] : List LDPointers).get ⟨0, by decide⟩)).currDataPtrs.get ⟨1, by decide⟩ ≠
      (([⟨[10, 11], [20, 21]⟩, ⟨[30], [40]⟩] : List LDPointers).get ⟨0, by decide⟩).currDataPtrs.get ⟨1, by decide⟩ ∧
    ddSwap (ddSwap [⟨[10, 11], [20, 21]⟩, ⟨[30], [40]⟩]) = [⟨[10, 11], [20, 21]⟩, ⟨[30], [40]⟩] :=
  C7_swap_exchanges_pointers [⟨[10, 11], [20, 21]⟩, ⟨[30], [40]⟩] 0 1
    (by decide) (by decide) (by decide) (by decide)

/-- Reading back one row-iteration of the peer-enable loop: the inner fold
over `dst` values records the per-pair outcome at the pairs it visits and
leaves every other entry alone. -/
theorem peerInner_read (err : ℕ → ℕ → ℕ) (src : ℕ) (l : List ℕ)
    (m : ℕ → ℕ → Bool) (s d : ℕ) :
    (l.foldl
      (fun m2 dst => fun s2 d2 =>
        if s2 = src ∧ d2 = dst then
          (if src = dst then true else (peerPairOutcome (err src dst)).1)
        else m2 s2 d2)
      m) s d =
      if s = src ∧ d ∈ l then
        (if src = d then true else (peerPairOutcome (err src d)).1)
      else m s d := by
  induction l generalizing m with
  | nil => simp
  | cons a t ih =>
    simp only [List.foldl_cons]
    rw [ih]
    by_cases hs : s = src
    · subst hs
      by_cases hdt : d ∈ t
      · simp [hdt]
      · by_cases hda : d = a
        · subst hda; simp [hdt]
        · simp [hdt, hda]
    · simp [hs]

/-- Reading back the full peer-enable double loop. -/
theorem peerMatrix_read (deviceCount : ℕ) (err : ℕ → ℕ → ℕ) (s d : ℕ)
    (hs : s < deviceCount) (hd : d < deviceCount) :
    peerMatrix deviceCount err s d =
      (if s = d then true else (peerPairOutcome (err s d)).1) := by
  unfold peerMatrix
  have outer : ∀ (l : List ℕ) (m : ℕ → ℕ → Bool),
      ((l.foldl
        (fun m src =>
          (List.range deviceCount).foldl
            (fun m2 dst => fun s2 d2 =>
              if s2 = src ∧ d2 = dst then
                (if src = dst then true else (peerPairOutcome (err src dst)).1)
              else m2 s2 d2)
            m)
        m) s d) =
        if s ∈ l then (if s = d then true else (peerPairOutcome (err s d)).1)
        else m s d := by
    intro l
    induction l with
    | nil => intro m; simp
    | cons a t ih =>
      intro m
      simp only [List.foldl_cons]
      rw [ih]
      by_cases hst : s ∈ t
      · simp [hst]
      · rw [peerInner_read]
        by_cases hsa : s = a
        · subst hsa
          simp [hst, List.mem_range.mpr hd]
        · simp [hst, hsa]
  rw [outer]
  simp [List.mem_range.mpr hs]

/-- C9: during construction, no outcome of `cudaDeviceEnablePeerAccess`
terminates the peer-enable loop (the guard tests the constant
`cudaErrorInvalidDevice`, which is nonzero, so `assert(0)` is unreachable),
and a pair of devices is recorded as having peer access exactly when it is
the diagonal pair or the returned status is success or already-enabled;
every other status records no peer access. -/
theorem C9_peer_enable_not_fatal (deviceCount : ℕ) (err : ℕ → ℕ → ℕ)
    (src dst : ℕ) (hs : src < deviceCount) (hd : dst < deviceCount) :
    peerAborts deviceCount err = false ∧
    (peerMatrix deviceCount err src dst = true ↔
      (src = dst ∨ err src dst = cudaSuccess ∨
        err src dst = cudaErrorPeerAccessAlreadyEnabled)) := by
  constructor
  · unfold peerAborts
    simp only [List.any_eq_false, List.mem_range]
    intro a _ hb
    rw [List.any_eq_true] at hb
    obtain ⟨b, _, hb⟩ := hb
    unfold peerPairOutcome cudaErrorInvalidDevice at hb
    split_ifs at hb <;> simp_all
  · rw [peerMatrix_read deviceCount err src dst hs hd]
    unfold peerPairOutcome cudaSuccess cudaErrorPeerAccessAlreadyEnabled cudaErrorInvalidDevice
    split_ifs <;> simp_all

/-- C9 witness: two devices where enabling peer access fails with status
`999` in every direction: construction does not abort, and the off-diagonal
pair `(0, 1)` is recorded as having no peer access. -/
theorem C9_peer_enable_not_fatal_witness :
    peerAborts 2 (fun _ _ => 999) = false ∧
    (peerMatrix 2 (fun _ _ => 999) 0 1 = true ↔
      ((0 : ℕ) = 1 ∨ (999 : ℕ) = cudaSuccess ∨
        (999 : ℕ) = cudaErrorPeerAccessAlreadyEnabled)) :=
  C9_peer_enable_not_fatal 2 (fun _ _ => 999) 0 1 (by decide) (by decide)

/-- Galois characterization of `div_ceil`. -/
theorem div_ceil_le_iff (x n k : ℕ) (hn : 1 ≤ n) : div_ceil x n ≤ k ↔ x ≤ k * n := by
  unfold div_ceil
  rw [Nat.div_le_iff_le_mul_add_pred hn]
  have hb : n * k = k * n := Nat.mul_comm n k
  omega

/-- Lemma: `div_ceil` is floor division plus one exactly on inexact divisions. -/
theorem div_ceil_eq (x n : ℕ) (hn : 1 ≤ n) :
    div_ceil x n = x / n + (if x % n = 0 then 0 else 1) := by
  have spec1 : x ≤ div_ceil x n * n := (div_ceil_le_iff x n (div_ceil x n) hn).mp le_rfl
  have hqr : n * (x / n) + x % n = x := Nat.div_add_mod x n
  have hcomm : (x / n) * n = n * (x / n) := Nat.mul_comm _ _
  have hrem : x % n < n := Nat.mod_lt x hn
  have spec2 : div_ceil x n * n < x + n := by
    by_contra hcon
    push_neg at hcon
    rcases Nat.eq_zero_or_pos (div_ceil x n) with h0 | h0
    · rw [h0] at hcon; simp at hcon; omega
    · have hb : (div_ceil x n - 1) * n = div_ceil x n * n - 1 * n := Nat.sub_mul _ _ _
      have hle : div_ceil x n ≤ div_ceil x n - 1 :=
        (div_ceil_le_iff x n _ hn).mpr (by omega)
      omega
  by_cases h0 : x % n = 0
  · have hxq : (x / n) * n = x := by omega
    have h1 : (x / n) * n ≤ div_ceil x n * n := by omega
    have h3 : x / n ≤ div_ceil x n := Nat.le_of_mul_le_mul_right h1 hn
    have h4 : div_ceil x n < x / n + 1 := by
      by_contra hcon
      push_neg at hcon
      have hmul : (x / n + 1) * n ≤ div_ceil x n * n := Nat.mul_le_mul_right n hcon
      have hb : (x / n + 1) * n = (x / n) * n + n := by ring
      omega
    rw [if_pos h0]
    omega
  · have h3 : x / n + 1 ≤ div_ceil x n := by
      by_contra hcon
      push_neg at hcon
      have hmul : div_ceil x n * n ≤ (x / n) * n := Nat.mul_le_mul_right n (by omega)
      omega
    have h4 : div_ceil x n < x / n + 2 := by
      by_contra hcon
      push_neg at hcon
      have hmul : (x / n + 2) * n ≤ div_ceil x n * n := Nat.mul_le_mul_right n hcon
      have hb : (x / n + 2) * n = (x / n) * n + n + n := by ring
      omega
    rw [if_neg h0]
    omega

/-- Splitting twice by `a` then `b` equals splitting once by `a * b`. -/
theorem div_ceil_div_ceil (x a b : ℕ) (ha : 1 ≤ a) (hb : 1 ≤ b) :
    div_ceil (div_ceil x a) b = div_ceil x (a * b) := by
  have hab : 1 ≤ a * b := Nat.one_le_iff_ne_zero.mpr (by positivity)
  apply Nat.le_antisymm
  · rw [div_ceil_le_iff _ b _ hb, div_ceil_le_iff _ a _ ha]
    have h2 : x ≤ div_ceil x (a * b) * (a * b) :=
      (div_ceil_le_iff x (a * b) _ hab).mp le_rfl
    have hr : div_ceil x (a * b) * b * a = div_ceil x (a * b) * (a * b) := by ring
    omega
  · rw [div_ceil_le_iff _ (a * b) _ hab]
    have h1 : x ≤ div_ceil x a * a := (div_ceil_le_iff x a _ ha).mp le_rfl
    have h2 : div_ceil x a ≤ div_ceil (div_ceil x a) b * b :=
      (div_ceil_le_iff _ b _ hb).mp le_rfl
    have h3 : div_ceil x a * a ≤ div_ceil (div_ceil x a) b * b * a :=
      Nat.mul_le_mul_right a h2
    have hr : div_ceil (div_ceil x a) b * b * a = div_ceil (div_ceil x a) b * (a * b) := by ring
    omega

theorem div_ceil_one (x : ℕ) : div_ceil x 1 = x := by
  unfold div_ceil; omega

/-- Lemma: `splitStepRank` preserves the constructor invariant and the global
size. -/
theorem splitStepRank_pfpInv (st : PFPState) (amt : ℕ) (h : pfpInv st) :
    pfpInv (splitStepRank st amt) ∧ (splitStepRank st amt).size = st.size := by
  unfold pfpInv at h ⊢
  obtain ⟨h1, h1p, h2, h2p, h3, h3p⟩ := h
  unfold splitStepRank
  by_cases hamt : amt < 2
  · rw [if_pos hamt]
    exact ⟨⟨h1, h1p, h2, h2p, h3, h3p⟩, rfl⟩
  · have hamt1 : 1 ≤ amt := by omega
    obtain ⟨ha1, hb1⟩ := Nat.mul_ne_zero_iff.mp (show st.rankDim.x * st.gpuDim.x ≠ 0 by omega)
    obtain ⟨ha2, hb2⟩ := Nat.mul_ne_zero_iff.mp (show st.rankDim.y * st.gpuDim.y ≠ 0 by omega)
    obtain ⟨ha3, hb3⟩ := Nat.mul_ne_zero_iff.mp (show st.rankDim.z * st.gpuDim.z ≠ 0 by omega)
    rw [if_neg hamt]
    dsimp only
    split_ifs with hc1 hc2 <;>
      refine ⟨⟨?_, ?_, ?_, ?_, ?_, ?_⟩, rfl⟩ <;>
      first
        | exact h1
        | exact h2
        | exact h3
        | exact h1p
        | exact h2p
        | exact h3p
        | (apply Nat.one_le_iff_ne_zero.mpr; simp only [Nat.mul_ne_zero_iff]; omega)
        | (rw [h1, div_ceil_div_ceil _ _ _ h1p hamt1]; ring_nf)
        | (rw [h2, div_ceil_div_ceil _ _ _ h2p hamt1]; ring_nf)
        | (rw [h3, div_ceil_div_ceil _ _ _ h3p hamt1]; ring_nf)

/-- Lemma: `splitStepGpu` preserves the constructor invariant and the global
size. -/
theorem splitStepGpu_pfpInv (st : PFPState) (amt : ℕ) (h : pfpInv st) :
    pfpInv (splitStepGpu st amt) ∧ (splitStepGpu st amt).size = st.size := by
  unfold pfpInv at h ⊢
  obtain ⟨h1, h1p, h2, h2p, h3, h3p⟩ := h
  unfold splitStepGpu
  by_cases hamt : amt < 2
  · rw [if_pos hamt]
    exact ⟨⟨h1, h1p, h2, h2p, h3, h3p⟩, rfl⟩
  · have hamt1 : 1 ≤ amt := by omega
    obtain ⟨ha1, hb1⟩ := Nat.mul_ne_zero_iff.mp (show st.rankDim.x * st.gpuDim.x ≠ 0 by omega)
    obtain ⟨ha2, hb2⟩ := Nat.mul_ne_zero_iff.mp (show st.rankDim.y * st.gpuDim.y ≠ 0 by omega)
    obtain ⟨ha3, hb3⟩ := Nat.mul_ne_zero_iff.mp (show st.rankDim.z * st.gpuDim.z ≠ 0 by omega)
    rw [if_neg hamt]
    dsimp only
    split_ifs with hc1 hc2 <;>
      refine ⟨⟨?_, ?_, ?_, ?_, ?_, ?_⟩, rfl⟩ <;>
      first
        | exact h1
        | exact h2
        | exact h3
        | exact h1p
        | exact h2p
        | exact h3p
        | (apply Nat.one_le_iff_ne_zero.mpr; simp only [Nat.mul_ne_zero_iff]; omega)
        | (rw [h1, div_ceil_div_ceil _ _ _ h1p hamt1]; ring_nf)
        | (rw [h2, div_ceil_div_ceil _ _ _ h2p hamt1]; ring_nf)
        | (rw [h3, div_ceil_div_ceil _ _ _ h3p hamt1]; ring_nf)

/-- The constructor invariant holds after folding any invariant-preserving
step over any factor list. -/
theorem foldl_splitStep_pfpInv (f : PFPState → ℕ → PFPState)
    (hf : ∀ st a, pfpInv st → pfpInv (f st a) ∧ (f st a).size = st.size)
    (l : List ℕ) (st : PFPState) (h : pfpInv st) :
    pfpInv (l.foldl f st) ∧ (l.foldl f st).size = st.size := by
  induction l generalizing st with
  | nil => exact ⟨h, rfl⟩
  | cons a t ih =>
    simp only [List.foldl_cons]
    obtain ⟨hi, hs⟩ := hf st a h
    obtain ⟨hi2, hs2⟩ := ih _ hi
    exact ⟨hi2, by rw [hs2, hs]⟩

/-- The `PFP` constructor establishes its invariant for every input. -/
theorem pfp_pfpInv (size : N3) (W G : ℕ) :
    pfpInv (pfp size W G) ∧ (pfp size W G).size = size := by
  unfold pfp
  have h0 : pfpInv ⟨size, ⟨1, 1, 1⟩, ⟨1, 1, 1⟩, size⟩ := by
    unfold pfpInv div_ceil
    norm_num
  obtain ⟨h1, hs1⟩ := foldl_splitStep_pfpInv splitStepRank splitStepRank_pfpInv
    (prime_factors W) _ h0
  obtain ⟨h2, hs2⟩ := foldl_splitStep_pfpInv splitStepGpu splitStepGpu_pfpInv
    (prime_factors G) _ h1
  exact ⟨h2, by rw [hs2, hs1]⟩

theorem prime_factors_one : prime_factors 1 = [] := by decide

theorem prime_factors_two : prime_factors 2 = [2] := by decide

/-- The partition of the `(2,2,2)` volume over 2 ranks and 1 GPU per rank:
the single factor 2 splits the x axis (all three candidates tie at
cubeness 1/2 and the first branch wins). -/
theorem pfp_222 : pfp ⟨2, 2, 2⟩ 2 1 = ⟨⟨2, 2, 2⟩, ⟨1, 1, 1⟩, ⟨2, 1, 1⟩, ⟨1, 2, 2⟩⟩ := by
  unfold pfp
  rw [prime_factors_two, prime_factors_one]
  simp only [List.foldl_cons, List.foldl_nil]
  unfold splitStepRank
  norm_num [cubeness, div_ceil]

/-- The partition of the `(4,4,8)` volume over 2 ranks and 1 GPU per rank:
the single factor 2 splits the y axis although the z split is the unique
cubeness maximizer (the second branch compares `ySplitCubeness` against
`max(xSplitCubeness, ySplitCubeness)`, which never mentions the z
candidate). -/
theorem pfp_448 : pfp ⟨4, 4, 8⟩ 2 1 = ⟨⟨4, 4, 8⟩, ⟨1, 1, 1⟩, ⟨1, 2, 1⟩, ⟨4, 2, 8⟩⟩ := by
  unfold pfp
  rw [prime_factors_two, prime_factors_one]
  simp only [List.foldl_cons, List.foldl_nil]
  unfold splitStepRank
  norm_num [cubeness, div_ceil]

theorem N3.mul_x (a b : N3) : (a * b).x = a.x * b.x := rfl

theorem N3.mul_y (a b : N3) : (a * b).y = a.y * b.y := rfl

theorem N3.mul_z (a b : N3) : (a * b).z = a.z * b.z := rfl

/-- Lemma: `A - (c ? 1 : 0) = A - 1` holds exactly when `c` does. -/
theorem sub_ite_eq_sub_one_iff (A : ℤ) (c : Prop) [Decidable c] :
    (A - (if c then 1 else 0) = A - 1) ↔ c := by
  split_ifs with h
  · simp [h]
  · simp [h]
    omega

/-- Distributing the remainder on one axis: the axis components of
`local_domain_size` along a full line of `n` subdomains sum to the global
extent of that axis. -/
theorem axis_sum (X n dom : ℕ) (hn : 1 ≤ n) (hdom : dom = div_ceil X n) :
    (Finset.range n).sum
      (fun i => (dom : ℤ) - (if X % n ≠ 0 ∧ ((X % n : ℕ) : ℤ) ≤ (i : ℤ) then 1 else 0)) =
      (X : ℤ) := by
  have hq : n * (X / n) + X % n = X := Nat.div_add_mod X n
  by_cases h0 : X % n = 0
  · simp only [h0, ne_eq, not_true_eq_false, false_and, if_false, sub_zero]
    rw [Finset.sum_const, Finset.card_range, nsmul_eq_mul]
    have hdom2 : n * dom = X := by
      rw [hdom, div_ceil_eq X n hn, if_pos h0, Nat.add_zero]
      omega
    exact_mod_cast hdom2
  · have hremlt : X % n < n := Nat.mod_lt X hn
    have hcond : ∀ i : ℕ,
        (X % n ≠ 0 ∧ ((X % n : ℕ) : ℤ) ≤ (i : ℤ)) ↔ (X % n ≤ i) := by
      intro i
      constructor
      · rintro ⟨_, hc⟩; exact_mod_cast hc
      · intro hc; exact ⟨h0, by exact_mod_cast hc⟩
    rw [Finset.sum_sub_distrib, Finset.sum_const, Finset.card_range, nsmul_eq_mul]
    rw [Finset.sum_congr rfl (fun i _ => if_congr (hcond i) rfl rfl)]
    have hsum : (Finset.range n).sum (fun i => (if X % n ≤ i then (1 : ℤ) else 0)) =
        ((n - X % n : ℕ) : ℤ) := by
      rw [Finset.sum_boole]
      rw [Finset.range_eq_Ico]
      have hfil : {x ∈ Finset.Ico 0 n | X % n ≤ x} = Finset.Ico (X % n) n := by
        rw [Finset.Ico_filter_le 0 n (X % n)]
        congr 1
        omega
      rw [hfil, Nat.card_Ico]
    rw [hsum]
    have hdom2 : dom = X / n + 1 := by rw [hdom, div_ceil_eq X n hn, if_neg h0]
    subst hdom2
    have hqz : (n : ℤ) * ((X / n : ℕ) : ℤ) + ((X % n : ℕ) : ℤ) = (X : ℤ) := by
      exact_mod_cast hq
    have hc : ((n - X % n : ℕ) : ℤ) = (n : ℤ) - ((X % n : ℕ) : ℤ) :=
      Nat.cast_sub (le_of_lt hremlt)
    have hexp : (n : ℤ) * ((X / n + 1 : ℕ) : ℤ) = (n : ℤ) * ((X / n : ℕ) : ℤ) + n := by
      push_cast
      ring
    rw [hc, hexp]
    omega

/-- C2: the partitioner does not always split the axis of largest
post-split cubeness.  At running domain size `(4,4,8)` with prime factor 2
the z split is the unique cubeness maximizer (cubeness 1 versus 1/4 for
the x and y candidates) and the spec's choice is z, but the code splits y:
its second branch compares `ySplitCubeness` against
`max(xSplitCubeness, ySplitCubeness)` — which never mentions the z
candidate — so the whole `PFP((4,4,8), ranks=2, gpus=1)` construction ends
with `rankDim = (1,2,1)` instead of `(1,1,2)`.  (Every cubeness value
involved is exactly representable in binary floating point, so the `ℚ`
model agrees with the source's `double` arithmetic here.) -/
theorem C2_split_axis_not_cubeness_argmax :
    codeChoice 4 4 8 2 = Axis.y ∧
    specChoice 4 4 8 2 = Axis.z ∧
    cubeness 4 4 (div_ceil 8 2) > cubeness (div_ceil 4 2) 4 8 ∧
    cubeness 4 4 (div_ceil 8 2) > cubeness 4 (div_ceil 4 2) 8 ∧
    (pfp ⟨4, 4, 8⟩ 2 1).rankDim = ⟨1, 2, 1⟩ := by
  refine ⟨?_, ?_, ?_, ?_, ?_⟩
  · unfold codeChoice
    norm_num [cubeness, div_ceil]
  · unfold specChoice
    norm_num [cubeness, div_ceil]
  · norm_num [cubeness, div_ceil]
  · norm_num [cubeness, div_ceil]
  · rw [pfp_448]

/-- C3 counterexample: summing `local_domain_size` over all subdomain
indices of the full 3-D grid does not give the global size componentwise:
for the `(2,2,2)` volume over 2 ranks and 1 GPU the two subdomains have
local size `(1,2,2)` each, summing to `(2,4,4)`. -/
theorem C3_sum_over_all_indices_counterexample :
    sum_local_sizes (pfp ⟨2, 2, 2⟩ 2 1) ≠ (⟨2, 2, 2⟩ : Dim3) ∧
    sum_local_sizes (pfp ⟨2, 2, 2⟩ 2 1) = (⟨2, 4, 4⟩ : Dim3) := by
  rw [pfp_222]
  constructor
  · decide
  · decide

/-- C3 (amended): for every global extent at least 1 on each axis and at
least one rank and one GPU per rank, the axis components of
`local_domain_size` sum to the global extent along each grid line of the
partition's axis (not over the whole 3-D index grid), and on each axis
exactly the subdomains whose axis index is at least the nonzero remainder
`global mod gridExtent` have one subtracted from `domSize_`. -/
theorem C3_line_sums_and_remainder (X Y Z W G : ℕ)
    (hX : 1 ≤ X) (hY : 1 ≤ Y) (hZ : 1 ≤ Z) (hW : 1 ≤ W) (hG : 1 ≤ G)
    (st : PFPState) (hst : st = pfp ⟨X, Y, Z⟩ W G) :
    (∀ iy iz : ℤ,
      (Finset.range (st.rankDim.x * st.gpuDim.x)).sum
        (fun ix => (local_domain_size st ⟨(ix : ℤ), iy, iz⟩).x) = (X : ℤ)) ∧
    (∀ ix iz : ℤ,
      (Finset.range (st.rankDim.y * st.gpuDim.y)).sum
        (fun iy => (local_domain_size st ⟨ix, (iy : ℤ), iz⟩).y) = (Y : ℤ)) ∧
    (∀ ix iy : ℤ,
      (Finset.range (st.rankDim.z * st.gpuDim.z)).sum
        (fun iz => (local_domain_size st ⟨ix, iy, (iz : ℤ)⟩).z) = (Z : ℤ)) ∧
    (∀ idx : Dim3,
      ((local_domain_size st idx).x = (st.domSize.x : ℤ) - 1 ↔
        X % (st.rankDim.x * st.gpuDim.x) ≠ 0 ∧
          ((X % (st.rankDim.x * st.gpuDim.x) : ℕ) : ℤ) ≤ idx.x) ∧
      ((local_domain_size st idx).y = (st.domSize.y : ℤ) - 1 ↔
        Y % (st.rankDim.y * st.gpuDim.y) ≠ 0 ∧
          ((Y % (st.rankDim.y * st.gpuDim.y) : ℕ) : ℤ) ≤ idx.y) ∧
      ((local_domain_size st idx).z = (st.domSize.z : ℤ) - 1 ↔
        Z % (st.rankDim.z * st.gpuDim.z) ≠ 0 ∧
          ((Z % (st.rankDim.z * st.gpuDim.z) : ℕ) : ℤ) ≤ idx.z)) := by
  obtain ⟨hinv, hsz⟩ := pfp_pfpInv ⟨X, Y, Z⟩ W G
  rw [← hst] at hinv hsz
  obtain ⟨h1, h1p, h2, h2p, h3, h3p⟩ := hinv
  have hszx : st.size.x = X := by rw [hsz]
  have hszy : st.size.y = Y := by rw [hsz]
  have hszz : st.size.z = Z := by rw [hsz]
  refine ⟨?_, ?_, ?_, ?_⟩
  · intro iy iz
    have := axis_sum X (st.rankDim.x * st.gpuDim.x) st.domSize.x h1p (by rw [h1, hszx])
    rw [← this]
    apply Finset.sum_congr rfl
    intro i _
    unfold local_domain_size N3.mod
    simp only [hszx]
    rfl
  · intro ix iz
    have := axis_sum Y (st.rankDim.y * st.gpuDim.y) st.domSize.y h2p (by rw [h2, hszy])
    rw [← this]
    apply Finset.sum_congr rfl
    intro i _
    unfold local_domain_size N3.mod
    simp only [hszy]
    rfl
  · intro ix iy
    have := axis_sum Z (st.rankDim.z * st.gpuDim.z) st.domSize.z h3p (by rw [h3, hszz])
    rw [← this]
    apply Finset.sum_congr rfl
    intro i _
    unfold local_domain_size N3.mod
    simp only [hszz]
    rfl
  · intro idx
    unfold local_domain_size N3.mod
    simp only [hszx, hszy, hszz, N3.mul_x, N3.mul_y, N3.mul_z]
    exact ⟨sub_ite_eq_sub_one_iff _ _, sub_ite_eq_sub_one_iff _ _,
      sub_ite_eq_sub_one_iff _ _⟩

/-- C3 witness: the `(2,2,2)` volume over 2 ranks and 1 GPU per rank: the
x line of 2 subdomains sums to 2, and the subdomain at index 0 does not
take the (zero) remainder subtraction. -/
theorem C3_line_sums_and_remainder_witness :
    (Finset.range ((pfp ⟨2, 2, 2⟩ 2 1).rankDim.x * (pfp ⟨2, 2, 2⟩ 2 1).gpuDim.x)).sum
      (fun ix => (local_domain_size (pfp ⟨2, 2, 2⟩ 2 1) ⟨(ix : ℤ), 0, 0⟩).x) = (2 : ℤ) ∧
    ((local_domain_size (pfp ⟨2, 2, 2⟩ 2 1) ⟨0, 0, 0⟩).x =
        ((pfp ⟨2, 2, 2⟩ 2 1).domSize.x : ℤ) - 1 ↔
      2 % ((pfp ⟨2, 2, 2⟩ 2 1).rankDim.x * (pfp ⟨2, 2, 2⟩ 2 1).gpuDim.x) ≠ 0 ∧
        ((2 % ((pfp ⟨2, 2, 2⟩ 2 1).rankDim.x * (pfp ⟨2, 2, 2⟩ 2 1).gpuDim.x) : ℕ) : ℤ) ≤
          (0 : ℤ)) := by
  obtain ⟨hx, hy, hz, hr⟩ := C3_line_sums_and_remainder 2 2 2 2 1
    (by decide) (by decide) (by decide) (by decide) (by decide) (pfp ⟨2, 2, 2⟩ 2 1) rfl
  exact ⟨hx 0 0, (hr ⟨0, 0, 0⟩).1⟩

/-- One axis of `local_domain_size`: the component is `domSize_` or
`domSize_ - 1`, never negative, and any two indices' components differ by
at most one. -/
theorem axis_component (Xv n dom : ℕ) (hn : 1 ≤ n) (hdom : dom = div_ceil Xv n) (i j : ℤ) :
    ((dom : ℤ) - (if Xv % n ≠ 0 ∧ ((Xv % n : ℕ) : ℤ) ≤ i then 1 else 0) = (dom : ℤ) ∨
      (dom : ℤ) - (if Xv % n ≠ 0 ∧ ((Xv % n : ℕ) : ℤ) ≤ i then 1 else 0) = (dom : ℤ) - 1) ∧
    0 ≤ (dom : ℤ) - (if Xv % n ≠ 0 ∧ ((Xv % n : ℕ) : ℤ) ≤ i then 1 else 0) ∧
    (((dom : ℤ) - (if Xv % n ≠ 0 ∧ ((Xv % n : ℕ) : ℤ) ≤ i then 1 else 0)) -
      ((dom : ℤ) - (if Xv % n ≠ 0 ∧ ((Xv % n : ℕ) : ℤ) ≤ j then 1 else 0))).natAbs ≤ 1 := by
  by_cases h0 : Xv % n = 0
  · simp [h0]
  · have hd : 1 ≤ dom := by
      rw [hdom, div_ceil_eq Xv n hn, if_neg h0]
      exact Nat.le_add_left 1 _
    split_ifs <;> refine ⟨?_, ?_, ?_⟩ <;> omega

/-- C10: for every subdomain index, each component of `local_domain_size`
is the base split size `domSize_` or `domSize_ - 1` and is never negative,
and any two subdomains' local sizes differ by at most one on each axis. -/
theorem C10_local_size_components (sz : N3) (W G : ℕ) (hW : 1 ≤ W) (hG : 1 ≤ G)
    (st : PFPState) (hst : st = pfp sz W G) (idx jdx : Dim3) :
    ((local_domain_size st idx).x = (st.domSize.x : ℤ) ∨
      (local_domain_size st idx).x = (st.domSize.x : ℤ) - 1) ∧
    ((local_domain_size st idx).y = (st.domSize.y : ℤ) ∨
      (local_domain_size st idx).y = (st.domSize.y : ℤ) - 1) ∧
    ((local_domain_size st idx).z = (st.domSize.z : ℤ) ∨
      (local_domain_size st idx).z = (st.domSize.z : ℤ) - 1) ∧
    (0 ≤ (local_domain_size st idx).x ∧ 0 ≤ (local_domain_size st idx).y ∧
      0 ≤ (local_domain_size st idx).z) ∧
    (((local_domain_size st idx).x - (local_domain_size st jdx).x).natAbs ≤ 1 ∧
      ((local_domain_size st idx).y - (local_domain_size st jdx).y).natAbs ≤ 1 ∧
      ((local_domain_size st idx).z - (local_domain_size st jdx).z).natAbs ≤ 1) := by
  obtain ⟨hinv, hsz⟩ := pfp_pfpInv sz W G
  rw [← hst] at hinv hsz
  obtain ⟨h1, h1p, h2, h2p, h3, h3p⟩ := hinv
  unfold local_domain_size N3.mod
  simp only [N3.mul_x, N3.mul_y, N3.mul_z]
  obtain ⟨ha1, hb1, hc1⟩ := axis_component st.size.x _ _ h1p h1 idx.x jdx.x
  obtain ⟨ha2, hb2, hc2⟩ := axis_component st.size.y _ _ h2p h2 idx.y jdx.y
  obtain ⟨ha3, hb3, hc3⟩ := axis_component st.size.z _ _ h3p h3 idx.z jdx.z
  exact ⟨ha1, ha2, ha3, ⟨hb1, hb2, hb3⟩, ⟨hc1, hc2, hc3⟩⟩

/-- C10 witness: the `(2,2,2)` volume over 2 ranks and 1 GPU per rank at
subdomain indices `(0,0,0)` and `(1,0,0)`. -/
theorem C10_local_size_components_witness :
    ((local_domain_size (pfp ⟨2, 2, 2⟩ 2 1) ⟨0, 0, 0⟩).x =
        ((pfp ⟨2, 2, 2⟩ 2 1).domSize.x : ℤ) ∨
      (local_domain_size (pfp ⟨2, 2, 2⟩ 2 1) ⟨0, 0, 0⟩).x =
        ((pfp ⟨2, 2, 2⟩ 2 1).domSize.x : ℤ) - 1) ∧
    ((local_domain_size (pfp ⟨2, 2, 2⟩ 2 1) ⟨0, 0, 0⟩).y =
        ((pfp ⟨2, 2, 2⟩ 2 1).domSize.y : ℤ) ∨
      (local_domain_size (pfp ⟨2, 2, 2⟩ 2 1) ⟨0, 0, 0⟩).y =
        ((pfp ⟨2, 2, 2⟩ 2 1).domSize.y : ℤ) - 1) ∧
    ((local_domain_size (pfp ⟨2, 2, 2⟩ 2 1) ⟨0, 0, 0⟩).z =
        ((pfp ⟨2, 2, 2⟩ 2 1).domSize.z : ℤ) ∨
      (local_domain_size (pfp ⟨2, 2, 2⟩ 2 1) ⟨0, 0, 0⟩).z =
        ((pfp ⟨2, 2, 2⟩ 2 1).domSize.z : ℤ) - 1) ∧
    (0 ≤ (local_domain_size (pfp ⟨2, 2, 2⟩ 2 1) ⟨0, 0, 0⟩).x ∧
      0 ≤ (local_domain_size (pfp ⟨2, 2, 2⟩ 2 1) ⟨0, 0, 0⟩).y ∧
      0 ≤ (local_domain_size (pfp ⟨2, 2, 2⟩ 2 1) ⟨0, 0, 0⟩).z) ∧
    (((local_domain_size (pfp ⟨2, 2, 2⟩ 2 1) ⟨0, 0, 0⟩).x -
        (local_domain_size (pfp ⟨2, 2, 2⟩ 2 1) ⟨1, 0, 0⟩).x).natAbs ≤ 1 ∧
      ((local_domain_size (pfp ⟨2, 2, 2⟩ 2 1) ⟨0, 0, 0⟩).y -
        (local_domain_size (pfp ⟨2, 2, 2⟩ 2 1) ⟨1, 0, 0⟩).y).natAbs ≤ 1 ∧
      ((local_domain_size (pfp ⟨2, 2, 2⟩ 2 1) ⟨0, 0, 0⟩).z -
        (local_domain_size (pfp ⟨2, 2, 2⟩ 2 1) ⟨1, 0, 0⟩).z).natAbs ≤ 1) :=
  C10_local_size_components ⟨2, 2, 2⟩ 2 1 (by decide) (by decide)
    (pfp ⟨2, 2, 2⟩ 2 1) rfl ⟨0, 0, 0⟩ ⟨1, 0, 0⟩

/-- C5: after `realize`, for every local subdomain the plan holds a
non-null sender for every non-zero direction (every branch of the sender
classification constructs one), assigns nothing at direction `(0,0,0)`
(the loop skips it, leaving the initial null), and holds a null receiver
exactly for the directions whose source neighbor subdomain is owned by
this rank — colocated and remote source ranks both get a `RegionRecver`. -/
theorem C5_plan_shape (env : PlanEnv) (myIdx d : Dim3) (hd : validDir d) :
    (d ≠ ⟨0, 0, 0⟩ → (planSender env myIdx d).isSome) ∧
    planSender env myIdx ⟨0, 0, 0⟩ = none ∧
    planRecver env myIdx ⟨0, 0, 0⟩ = none ∧
    (planRecver env myIdx d = none ↔
      (d = ⟨0, 0, 0⟩ ∨
        env.myRank = get_rank env.part
          ((myIdx - d).wrap (env.part.rankDim * env.part.gpuDim).toDim3))) := by
  refine ⟨?_, ?_, ?_, ?_⟩
  · intro hne
    unfold planSender
    rw [if_neg hne]
    dsimp only
    split_ifs <;> rfl
  · unfold planSender
    rw [if_pos rfl]
  · unfold planRecver
    rw [if_pos rfl]
  · by_cases hd0 : d = ⟨0, 0, 0⟩
    · unfold planRecver
      simp [hd0]
    · unfold planRecver
      rw [if_neg hd0]
      dsimp only
      split_ifs <;> simp [hd0, *]

/-- C5 witness: the `(2,2,2)` volume split over 2 ranks, seen from rank 0's
subdomain `(0,0,0)` with direction `(1,0,0)`: no colocated ranks, no peer
access. -/
theorem C5_plan_shape_witness :
    ((planSender ⟨pfp ⟨2, 2, 2⟩ 2 1, 0, fun _ => false, fun _ => 0, fun _ _ => false⟩
        ⟨0, 0, 0⟩ ⟨1, 0, 0⟩).isSome) ∧
    planSender ⟨pfp ⟨2, 2, 2⟩ 2 1, 0, fun _ => false, fun _ => 0, fun _ _ => false⟩
      ⟨0, 0, 0⟩ ⟨0, 0, 0⟩ = none ∧
    planRecver ⟨pfp ⟨2, 2, 2⟩ 2 1, 0, fun _ => false, fun _ => 0, fun _ _ => false⟩
      ⟨0, 0, 0⟩ ⟨0, 0, 0⟩ = none ∧
    (planRecver ⟨pfp ⟨2, 2, 2⟩ 2 1, 0, fun _ => false, fun _ => 0, fun _ _ => false⟩
        ⟨0, 0, 0⟩ ⟨1, 0, 0⟩ = none ↔
      ((⟨1, 0, 0⟩ : Dim3) = ⟨0, 0, 0⟩ ∨
        (0 : ℤ) = get_rank (pfp ⟨2, 2, 2⟩ 2 1)
          (((⟨0, 0, 0⟩ : Dim3) - ⟨1, 0, 0⟩).wrap
            ((pfp ⟨2, 2, 2⟩ 2 1).rankDim * (pfp ⟨2, 2, 2⟩ 2 1).gpuDim).toDim3))) := by
  obtain ⟨h1, h2, h3, h4⟩ := C5_plan_shape
    ⟨pfp ⟨2, 2, 2⟩ 2 1, 0, fun _ => false, fun _ => 0, fun _ _ => false⟩
    ⟨0, 0, 0⟩ ⟨1, 0, 0⟩ (by decide)
  exact ⟨h1 (by decide), h2, h3, h4⟩

theorem byteCopy_frame (k : ℕ) (src : Mem) (sa : ℕ) (dst : Mem) (da a : ℕ)
    (h : a < da ∨ da + k ≤ a) : byteCopy k src sa dst da a = dst a := by
  induction k generalizing sa dst da with
  | zero => rfl
  | succ k ih =>
    unfold byteCopy
    rw [ih (sa + 1) _ (da + 1) (by omega)]
    unfold memUpd
    rw [if_neg (by omega)]

theorem byteCopy_read (k : ℕ) (src : Mem) (sa : ℕ) (dst : Mem) (da b : ℕ) (h : b < k) :
    byteCopy k src sa dst da (da + b) = src (sa + b) := by
  induction k generalizing sa dst da b with
  | zero => omega
  | succ k ih =>
    unfold byteCopy
    cases b with
    | zero =>
      rw [byteCopy_frame k src (sa + 1) _ (da + 1) (da + 0) (by omega)]
      unfold memUpd
      rw [if_pos (by omega)]
      simp
    | succ b =>
      have : da + (b + 1) = (da + 1) + b := by omega
      rw [this, ih (sa + 1) _ (da + 1) b (by omega)]
      congr 1
      omega

theorem storeLE_frame (k : ℕ) (m : Mem) (a v a2 : ℕ)
    (h : a2 < a ∨ a + k ≤ a2) : storeLE k m a v a2 = m a2 := by
  induction k generalizing m a v with
  | zero => rfl
  | succ k ih =>
    unfold storeLE
    rw [ih _ (a + 1) (v / 256) (by omega)]
    unfold memUpd
    rw [if_neg (by omega)]

theorem storeLE_read (k : ℕ) (m : Mem) (a v b : ℕ) (h : b < k) :
    storeLE k m a v (a + b) = ⟨v / 256 ^ b % 256, Nat.mod_lt _ (by omega)⟩ := by
  induction k generalizing m a v b with
  | zero => omega
  | succ k ih =>
    unfold storeLE
    cases b with
    | zero =>
      rw [storeLE_frame k _ (a + 1) (v / 256) (a + 0) (by omega)]
      unfold memUpd
      rw [if_pos (by omega)]
      apply Fin.ext
      simp
    | succ b =>
      have ha : a + (b + 1) = (a + 1) + b := by omega
      rw [ha, ih _ (a + 1) (v / 256) b (by omega)]
      apply Fin.ext
      simp only []
      rw [Nat.div_div_eq_div_mul]
      congr 2
      rw [pow_succ]
      ring

theorem loadLE_digit (k : ℕ) (m : Mem) (a b : ℕ) (h : b < k) :
    loadLE k m a / 256 ^ b % 256 = (m (a + b)).val := by
  induction k generalizing a b with
  | zero => omega
  | succ k ih =>
    unfold loadLE
    cases b with
    | zero =>
      simp only [pow_zero, Nat.div_one]
      rw [Nat.add_mul_mod_self_left]
      exact Nat.mod_eq_of_lt (m a).isLt
    | succ b =>
      have hsplit : ((m a).val + 256 * loadLE k m (a + 1)) / 256 ^ (b + 1) =
          ((m a).val + 256 * loadLE k m (a + 1)) / 256 / 256 ^ b := by
        rw [Nat.div_div_eq_div_mul]
        congr 1
        rw [pow_succ]
        ring
      rw [hsplit, Nat.add_mul_div_left _ _ (by omega : 0 < 256),
        Nat.div_eq_of_lt (m a).isLt, Nat.zero_add]
      have ha : a + (b + 1) = (a + 1) + b := by omega
      rw [ha] at *
      exact ih (a + 1) b (by omega)

/-- One element copy moves exactly the element's bytes, in every
element-size branch (the 4- and 8-byte word stores move the same bytes as
the byte copy). -/
theorem elemCopy_read (e : ℕ) (src : Mem) (sa : ℕ) (dst : Mem) (da b : ℕ) (h : b < e) :
    elemCopy e src sa dst da (da + b) = src (sa + b) := by
  unfold elemCopy
  split_ifs with h4 h8
  · subst h4
    rw [storeLE_read 4 dst da _ b h]
    apply Fin.ext
    simp only []
    exact loadLE_digit 4 src sa b h
  · subst h8
    rw [storeLE_read 8 dst da _ b h]
    apply Fin.ext
    simp only []
    exact loadLE_digit 8 src sa b h
  · exact byteCopy_read e src sa dst da b h

theorem elemCopy_frame (e : ℕ) (src : Mem) (sa : ℕ) (dst : Mem) (da a2 : ℕ)
    (h : a2 < da ∨ da + e ≤ a2) : elemCopy e src sa dst da a2 = dst a2 := by
  unfold elemCopy
  split_ifs with h4 h8
  · exact storeLE_frame 4 dst da _ a2 (by omega)
  · exact storeLE_frame 8 dst da _ a2 (by omega)
  · exact byteCopy_frame e src sa dst da a2 h

theorem multiCopy_frame (e : ℕ) (src : Mem) (ps : List (ℕ × ℕ)) (dst : Mem) (a : ℕ)
    (h : ∀ p ∈ ps, a < p.2 ∨ p.2 + e ≤ a) : multiCopy e src ps dst a = dst a := by
  induction ps generalizing dst with
  | nil => rfl
  | cons q t ih =>
    unfold multiCopy
    simp only [List.foldl_cons]
    have hq := h q (List.mem_cons_self q t)
    rw [show (t.foldl (fun d p => elemCopy e src p.1 d p.2)
        (elemCopy e src q.1 dst q.2)) = multiCopy e src t (elemCopy e src q.1 dst q.2) from rfl]
    rw [ih _ (fun p hp => h p (List.mem_cons_of_mem q hp))]
    exact elemCopy_frame e src q.1 dst q.2 a hq

/-- Reading back one pair of a kernel launch whose destination element
regions are separated: the fold writes `src`'s bytes there and no later
pair overwrites them. -/
theorem multiCopy_read (e : ℕ) (src : Mem) (ps : List (ℕ × ℕ)) (dst : Mem)
    (p : ℕ × ℕ) (b : ℕ) (hp : p ∈ ps) (hb : b < e)
    (hsep : ∀ q ∈ ps, q = p ∨ q.2 + e ≤ p.2 ∨ p.2 + e ≤ q.2) :
    multiCopy e src ps dst (p.2 + b) = src (p.1 + b) := by
  induction ps generalizing dst with
  | nil => simp at hp
  | cons q t ih =>
    unfold multiCopy
    simp only [List.foldl_cons]
    rw [show (t.foldl (fun d p => elemCopy e src p.1 d p.2)
        (elemCopy e src q.1 dst q.2)) = multiCopy e src t (elemCopy e src q.1 dst q.2) from rfl]
    by_cases hpt : p ∈ t
    · exact ih _ hpt (fun q2 hq2 => hsep q2 (List.mem_cons_of_mem q hq2))
    · have hqp : q = p := by
        rcases List.mem_cons.mp hp with h | h
        · exact h.symm
        · exact absurd h hpt
      subst hqp
      rw [multiCopy_frame e src t _ (q.2 + b) ?sep]
      · exact elemCopy_read e src q.1 dst q.2 b hb
      case sep =>
        intro q2 hq2
        rcases hsep q2 (List.mem_cons_of_mem q hq2) with h | h | h
        · exact absurd (h ▸ hq2) hpt
        · omega
        · omega

/-- Row-major linearization is injective on the index box. -/
theorem lin_inj (s c1 c2 : N3)
    (h1 : c1.x < s.x ∧ c1.y < s.y ∧ c1.z < s.z)
    (h2 : c2.x < s.x ∧ c2.y < s.y ∧ c2.z < s.z)
    (he : lin s c1 = lin s c2) : c1 = c2 := by
  obtain ⟨h1x, h1y, h1z⟩ := h1
  obtain ⟨h2x, h2y, h2z⟩ := h2
  have e1 : lin s c1 = c1.x + s.x * (c1.y + s.y * c1.z) := by unfold lin; ring
  have e2 : lin s c2 = c2.x + s.x * (c2.y + s.y * c2.z) := by unfold lin; ring
  rw [e1, e2] at he
  have hsx : 0 < s.x := by omega
  have hsy : 0 < s.y := by omega
  have hx : c1.x = c2.x := by
    have m1 := Nat.add_mul_mod_self_left c1.x s.x (c1.y + s.y * c1.z)
    have m2 := Nat.add_mul_mod_self_left c2.x s.x (c2.y + s.y * c2.z)
    rw [he] at m1
    have := m1.symm.trans m2
    rwa [Nat.mod_eq_of_lt h1x, Nat.mod_eq_of_lt h2x] at this
  have hyz : c1.y + s.y * c1.z = c2.y + s.y * c2.z :=
    Nat.eq_of_mul_eq_mul_left hsx (by omega)
  have hy : c1.y = c2.y := by
    have m1 := Nat.add_mul_mod_self_left c1.y s.y c1.z
    have m2 := Nat.add_mul_mod_self_left c2.y s.y c2.z
    rw [hyz] at m1
    have := m1.symm.trans m2
    rwa [Nat.mod_eq_of_lt h1y, Nat.mod_eq_of_lt h2y] at this
  have hz : c1.z = c2.z := Nat.eq_of_mul_eq_mul_left hsy (by omega)
  cases c1
  cases c2
  simp_all

/-- Membership in the kernel's index enumeration is exactly the extent
box. -/
theorem mem_idxList (ext i : N3) :
    i ∈ idxList ext ↔ (i.x < ext.x ∧ i.y < ext.y ∧ i.z < ext.z) := by
  unfold idxList
  simp only [List.mem_flatMap, List.mem_map, List.mem_range]
  constructor
  · rintro ⟨z, hz, y, hy, x, hx, rfl⟩
    exact ⟨hx, hy, hz⟩
  · rintro ⟨hx, hy, hz⟩
    exact ⟨i.z, hz, i.y, hy, i.x, hx, by cases i; rfl⟩

/-- Distinct element slots occupy disjoint byte intervals. -/
theorem interval_sep (A B e : ℕ) (hne : A ≠ B) :
    A * e + e ≤ B * e ∨ B * e + e ≤ A * e := by
  rcases Nat.lt_or_ge A B with h | h
  · left
    have hm : (A + 1) * e ≤ B * e := Nat.mul_le_mul_right e h
    have hx : (A + 1) * e = A * e + e := by ring
    omega
  · have hBA : B < A := by omega
    right
    have hm : (B + 1) * e ≤ A * e := Nat.mul_le_mul_right e hBA
    have hx : (B + 1) * e = B * e + e := by ring
    omega

/-- Reading the packed buffer: slot `j` of a `grid_pack` launch holds the
bytes of element `pos + j` of the source allocation. -/
theorem grid_pack_read (srcSize pos ext : N3) (e : ℕ) (src buf0 : Mem) (j : N3)
    (hj : j.x < ext.x ∧ j.y < ext.y ∧ j.z < ext.z) (b : ℕ) (hb : b < e) :
    grid_pack srcSize pos ext e src buf0 (lin ext j * e + b) =
      src (lin srcSize (pos + j) * e + b) := by
  unfold grid_pack packPairs
  exact multiCopy_read e src _ buf0 (lin srcSize (pos + j) * e, lin ext j * e) b
    (List.mem_map.mpr ⟨j, (mem_idxList ext j).mpr hj, rfl⟩) hb
    (by
      intro q hq
      obtain ⟨j2, hj2, rfl⟩ := List.mem_map.mp hq
      by_cases hjj : lin ext j2 = lin ext j
      · left
        have : j2 = j := lin_inj ext j2 j ((mem_idxList ext j2).mp hj2) hj hjj
        rw [this]
      · rcases interval_sep (lin ext j2) (lin ext j) e hjj with h | h
        · right; left; exact h
        · right; right; exact h)

/-- C8: packing the 3-D region at `pos` of extent `ext` from an allocation
of pitch `srcSize` into a contiguous buffer and then unpacking that buffer
into the same position and extent of a second allocation of the same pitch
reproduces the source region byte for byte, for every element size
(including the 4- and 8-byte word-store fast paths and the generic byte
copy). -/
theorem C8_pack_unpack_round_trip (srcSize pos ext : N3) (e : ℕ)
    (src buf0 dst0 : Mem)
    (hbounds : pos.x + ext.x ≤ srcSize.x ∧ pos.y + ext.y ≤ srcSize.y ∧
      pos.z + ext.z ≤ srcSize.z)
    (i : N3) (hi : i.x < ext.x ∧ i.y < ext.y ∧ i.z < ext.z) (b : ℕ) (hb : b < e) :
    grid_unpack srcSize pos ext e (grid_pack srcSize pos ext e src buf0) dst0
      (lin srcSize (pos + i) * e + b) =
      src (lin srcSize (pos + i) * e + b) := by
  obtain ⟨hbx, hby, hbz⟩ := hbounds
  obtain ⟨hix, hiy, hiz⟩ := hi
  have haddx : (pos + i).x = pos.x + i.x := rfl
  have h1 : grid_unpack srcSize pos ext e (grid_pack srcSize pos ext e src buf0) dst0
      (lin srcSize (pos + i) * e + b) =
      grid_pack srcSize pos ext e src buf0 (lin ext i * e + b) := by
    unfold grid_unpack unpackPairs
    exact multiCopy_read e _ _ dst0 (lin ext i * e, lin srcSize (pos + i) * e) b
      (List.mem_map.mpr ⟨i, (mem_idxList ext i).mpr ⟨hix, hiy, hiz⟩, rfl⟩) hb
      (by
        intro q hq
        obtain ⟨j2, hj2, rfl⟩ := List.mem_map.mp hq
        obtain ⟨hj2x, hj2y, hj2z⟩ := (mem_idxList ext j2).mp hj2
        by_cases hjj : lin srcSize (pos + j2) = lin srcSize (pos + i)
        · left
          have hsum : pos + j2 = pos + i := by
            apply lin_inj srcSize (pos + j2) (pos + i) ?b1 ?b2 hjj
            case b1 => exact ⟨by show pos.x + j2.x < srcSize.x; omega,
              by show pos.y + j2.y < srcSize.y; omega,
              by show pos.z + j2.z < srcSize.z; omega⟩
            case b2 => exact ⟨by show pos.x + i.x < srcSize.x; omega,
              by show pos.y + i.y < srcSize.y; omega,
              by show pos.z + i.z < srcSize.z; omega⟩
          have hcx : pos.x + j2.x = pos.x + i.x := congrArg N3.x hsum
          have hcy : pos.y + j2.y = pos.y + i.y := congrArg N3.y hsum
          have hcz : pos.z + j2.z = pos.z + i.z := congrArg N3.z hsum
          have hj2i : j2 = i := by
            have e1 : j2.x = i.x := by omega
            have e2 : j2.y = i.y := by omega
            have e3 : j2.z = i.z := by omega
            cases j2
            cases i
            dsimp only at e1 e2 e3
            simp only [N3.mk.injEq]
            exact ⟨e1, e2, e3⟩
          rw [hj2i]
        · rcases interval_sep (lin srcSize (pos + j2)) (lin srcSize (pos + i)) e hjj with h | h
          · right; left; exact h
          · right; right; exact h)
  rw [h1]
  exact grid_pack_read srcSize pos ext e src buf0 i ⟨hix, hiy, hiz⟩ b hb

/-- C8 witness: a `2×2×2` region at position `(1,0,0)` of a `3×2×2`
allocation with the 4-byte word-store path, at element `(0,1,1)`, byte 2. -/
theorem C8_pack_unpack_round_trip_witness :
    grid_unpack ⟨3, 2, 2⟩ ⟨1, 0, 0⟩ ⟨2, 2, 2⟩ 4
      (grid_pack ⟨3, 2, 2⟩ ⟨1, 0, 0⟩ ⟨2, 2, 2⟩ 4 (fun a => ⟨a % 256, Nat.mod_lt a (by omega)⟩)
        (fun _ => ⟨0, by omega⟩))
      (fun _ => ⟨7, by omega⟩)
      (lin ⟨3, 2, 2⟩ ((⟨1, 0, 0⟩ : N3) + ⟨0, 1, 1⟩) * 4 + 2) =
      (fun a : ℕ => (⟨a % 256, Nat.mod_lt a (by omega)⟩ : Fin 256))
        (lin ⟨3, 2, 2⟩ ((⟨1, 0, 0⟩ : N3) + ⟨0, 1, 1⟩) * 4 + 2) :=
  C8_pack_unpack_round_trip ⟨3, 2, 2⟩ ⟨1, 0, 0⟩ ⟨2, 2, 2⟩ 4
    (fun a => ⟨a % 256, Nat.mod_lt a (by omega)⟩) (fun _ => ⟨0, by omega⟩)
    (fun _ => ⟨7, by omega⟩) (by refine ⟨?_, ?_, ?_⟩ <;> decide)
    ⟨0, 1, 1⟩ (by refine ⟨?_, ?_, ?_⟩ <;> decide) 2 (by decide)

theorem emod_sub_emod_right (a b n : ℤ) : (a % n - b) % n = (a - b) % n := by
  conv_rhs => rw [Int.sub_emod]
  rw [Int.sub_emod (a % n) b, Int.emod_emod_of_dvd a (dvd_refl n)]

/-- Wrapping lands inside the grid. -/
theorem wrap_mem_grid (g a : Dim3) (hg : 1 ≤ g.x ∧ 1 ≤ g.y ∧ 1 ≤ g.z) :
    0 ≤ (a.wrap g).x ∧ (a.wrap g).x < g.x ∧ 0 ≤ (a.wrap g).y ∧ (a.wrap g).y < g.y ∧
      0 ≤ (a.wrap g).z ∧ (a.wrap g).z < g.z := by
  obtain ⟨h1, h2, h3⟩ := hg
  unfold Dim3.wrap
  exact ⟨Int.emod_nonneg a.x (by omega), Int.emod_lt_of_pos a.x (by omega),
    Int.emod_nonneg a.y (by omega), Int.emod_lt_of_pos a.y (by omega),
    Int.emod_nonneg a.z (by omega), Int.emod_lt_of_pos a.z (by omega)⟩

/-- Wrapping fixes in-grid indices. -/
theorem wrap_of_mem_grid (g a : Dim3)
    (ha : 0 ≤ a.x ∧ a.x < g.x ∧ 0 ≤ a.y ∧ a.y < g.y ∧ 0 ≤ a.z ∧ a.z < g.z) :
    a.wrap g = a := by
  obtain ⟨h1, h2, h3, h4, h5, h6⟩ := ha
  unfold Dim3.wrap
  rw [Dim3.ext_iff2]
  exact ⟨Int.emod_eq_of_lt h1 h2, Int.emod_eq_of_lt h3 h4, Int.emod_eq_of_lt h5 h6⟩

/-- The destination map `s ↦ (s + d).wrap g` of send direction `d` is
inverted by `i ↦ (i - d).wrap g` on the grid. -/
theorem wrap_add_cancel (g s d : Dim3)
    (hs : 0 ≤ s.x ∧ s.x < g.x ∧ 0 ≤ s.y ∧ s.y < g.y ∧ 0 ≤ s.z ∧ s.z < g.z) :
    (((s + d).wrap g) - d).wrap g = s := by
  have hstep : (((s + d).wrap g) - d).wrap g = ((s + d) - d).wrap g := by
    unfold Dim3.wrap
    rw [Dim3.ext_iff2]
    refine ⟨?_, ?_, ?_⟩ <;>
      simp only [Dim3.sub_x, Dim3.sub_y, Dim3.sub_z, Dim3.add_x, Dim3.add_y, Dim3.add_z] <;>
      apply emod_sub_emod_right
  rw [hstep]
  have hid : (s + d) - d = s := by
    rw [Dim3.ext_iff2]
    simp only [Dim3.sub_x, Dim3.sub_y, Dim3.sub_z, Dim3.add_x, Dim3.add_y, Dim3.add_z]
    exact ⟨by ring, by ring, by ring⟩
  rw [hid, wrap_of_mem_grid g s hs]

/-- Two valid axis directions whose halo intervals share a cell are equal. -/
theorem axis_region_unique (dc dc2 szc r cx : ℤ) (hd : dc.natAbs ≤ 1) (hd2 : dc2.natAbs ≤ 1)
    (hr : 0 ≤ r) (hsz : 0 ≤ szc)
    (h1 : halo_pos_axis dc szc r true ≤ cx ∧
      cx < halo_pos_axis dc szc r true + (if dc ≠ 0 then r else szc))
    (h2 : halo_pos_axis dc2 szc r true ≤ cx ∧
      cx < halo_pos_axis dc2 szc r true + (if dc2 ≠ 0 then r else szc)) :
    dc = dc2 := by
  have hc : dc = -1 ∨ dc = 0 ∨ dc = 1 := by omega
  have hc2 : dc2 = -1 ∨ dc2 = 0 ∨ dc2 = 1 := by omega
  rcases hc with h | h | h <;> rcases hc2 with h' | h' | h' <;> subst h <;> subst h' <;>
    simp only [halo_pos_axis] at h1 h2 <;> norm_num at h1 h2 ⊢ <;> omega

/-- A cell of a halo region (nonzero direction component on this axis) is
outside the compute interval of the axis. -/
theorem axis_halo_compute_disjoint (dc szc r cx : ℤ) (hd : dc.natAbs ≤ 1) (hdc : dc ≠ 0)
    (hhalo : halo_pos_axis dc szc r true ≤ cx ∧
      cx < halo_pos_axis dc szc r true + (if dc ≠ 0 then r else szc))
    (hcomp : r ≤ cx ∧ cx < r + szc) : False := by
  have hc : dc = -1 ∨ dc = 1 := by omega
  rcases hc with h | h <;> subst h <;>
    simp only [halo_pos_axis] at hhalo <;> norm_num at hhalo <;> omega

theorem validDir_neg (d : Dim3) (h : validDir d) : validDir (-d) := by
  obtain ⟨h1, h2, h3⟩ := h
  refine ⟨?_, ?_, ?_⟩ <;> simp only [Dim3.neg_x, Dim3.neg_y, Dim3.neg_z, Int.natAbs_neg] <;>
    assumption

theorem neg_dim3_zero_iff (d : Dim3) : -d = (⟨0, 0, 0⟩ : Dim3) ↔ d = ⟨0, 0, 0⟩ := by
  rw [Dim3.ext_iff2, Dim3.ext_iff2]
  simp only [Dim3.neg_x, Dim3.neg_y, Dim3.neg_z]
  omega

/-- Membership in the direction list of the planner loop: exactly the valid
non-zero directions. -/
theorem mem_dirList (d : Dim3) : d ∈ dirList ↔ (validDir d ∧ d ≠ ⟨0, 0, 0⟩) := by
  unfold dirList
  rw [List.mem_filter]
  simp only [decide_eq_true_eq]
  constructor
  · rintro ⟨hmem, hne⟩
    obtain ⟨x, hx, rest⟩ := List.mem_flatMap.mp hmem
    obtain ⟨y, hy, rest2⟩ := List.mem_flatMap.mp rest
    obtain ⟨z, hz, heq⟩ := List.mem_map.mp rest2
    subst heq
    have hx3 : x = -1 ∨ x = 0 ∨ x = 1 := by simpa using hx
    have hy3 : y = -1 ∨ y = 0 ∨ y = 1 := by simpa using hy
    have hz3 : z = -1 ∨ z = 0 ∨ z = 1 := by simpa using hz
    refine ⟨⟨?_, ?_, ?_⟩, hne⟩
    · show x.natAbs ≤ 1
      omega
    · show y.natAbs ≤ 1
      omega
    · show z.natAbs ≤ 1
      omega
  · rintro ⟨⟨h1, h2, h3⟩, hne⟩
    refine ⟨List.mem_flatMap.mpr ⟨d.x, ?_, List.mem_flatMap.mpr
      ⟨d.y, ?_, List.mem_map.mpr ⟨d.z, ?_, by cases d; rfl⟩⟩⟩, hne⟩ <;>
      simp only [List.mem_cons, List.mem_singleton] <;> omega

/-- Membership in the grid index list: exactly the in-grid indices. -/
theorem mem_gridIndices (g i : Dim3) :
    i ∈ gridIndices g ↔
      (0 ≤ i.x ∧ i.x < g.x ∧ 0 ≤ i.y ∧ i.y < g.y ∧ 0 ≤ i.z ∧ i.z < g.z) := by
  unfold gridIndices
  constructor
  · intro hmem
    obtain ⟨iz, hz, rest⟩ := List.mem_flatMap.mp hmem
    obtain ⟨iy, hy, rest2⟩ := List.mem_flatMap.mp rest
    obtain ⟨ix, hx, heq⟩ := List.mem_map.mp rest2
    subst heq
    rw [List.mem_range] at hx hy hz
    refine ⟨Int.natCast_nonneg ix, Int.lt_toNat.mp hx, Int.natCast_nonneg iy,
      Int.lt_toNat.mp hy, Int.natCast_nonneg iz, Int.lt_toNat.mp hz⟩
  · rintro ⟨h1, h2, h3, h4, h5, h6⟩
    refine List.mem_flatMap.mpr ⟨i.z.toNat, List.mem_range.mpr ?_,
      List.mem_flatMap.mpr ⟨i.y.toNat, List.mem_range.mpr ?_,
        List.mem_map.mpr ⟨i.x.toNat, List.mem_range.mpr ?_, ?_⟩⟩⟩
    · exact Int.lt_toNat.mpr (by rwa [Int.toNat_of_nonneg h5])
    · exact Int.lt_toNat.mpr (by rwa [Int.toNat_of_nonneg h3])
    · exact Int.lt_toNat.mpr (by rwa [Int.toNat_of_nonneg h1])
    · rw [Dim3.ext_iff2]
      exact ⟨Int.toNat_of_nonneg h1, Int.toNat_of_nonneg h3, Int.toNat_of_nonneg h5⟩

/-- Membership of the transports issued by one exchange. -/
theorem mem_exchangeOps (g : Dim3) (p : Dim3 × Dim3) :
    p ∈ exchangeOps g ↔ (p.1 ∈ gridIndices g ∧ p.2 ∈ dirList) := by
  unfold exchangeOps
  simp only [List.mem_flatMap, List.mem_map]
  constructor
  · rintro ⟨s, hs, d, hd, rfl⟩
    exact ⟨hs, hd⟩
  · rintro ⟨hs, hd⟩
    exact ⟨p.1, hs, p.2, hd, by cases p; rfl⟩

/-- Row-major linearization round-trips through its inverse inside the
extent box. -/
theorem unlinZ_linZ (ext o : Dim3)
    (h : 0 ≤ o.x ∧ o.x < ext.x ∧ 0 ≤ o.y ∧ o.y < ext.y ∧ 0 ≤ o.z ∧ o.z < ext.z) :
    unlinZ ext (linZ ext o) = o := by
  obtain ⟨h1, h2, h3, h4, h5, h6⟩ := h
  have hx : 0 < ext.x := by omega
  have hy : 0 < ext.y := by omega
  have hform : linZ ext o = o.x + ext.x * (o.y + ext.y * o.z) := by unfold linZ; ring
  unfold unlinZ
  rw [Dim3.ext_iff2]
  refine ⟨?_, ?_, ?_⟩ <;> simp only [hform]
  · rw [Int.add_mul_emod_self_left, Int.emod_eq_of_lt h1 h2]
  · rw [Int.add_mul_ediv_left _ _ (by omega : ext.x ≠ 0),
      Int.ediv_eq_zero_of_lt h1 h2, Int.zero_add,
      Int.add_mul_emod_self_left, Int.emod_eq_of_lt h3 h4]
  · have hform2 : o.x + ext.x * (o.y + ext.y * o.z) =
        (o.x + ext.x * o.y) + (ext.x * ext.y) * o.z := by ring
    rw [hform2, Int.add_mul_ediv_left _ _ (by positivity : ext.x * ext.y ≠ 0)]
    rw [Int.ediv_eq_zero_of_lt (by positivity) ?hlt, Int.zero_add]
    case hlt =>
      nlinarith

theorem halo_pos_x (d : Dim3) (halo : Bool) (sz : Dim3) (r : ℤ) :
    (halo_pos d halo sz r).x = halo_pos_axis d.x sz.x r halo := rfl

theorem halo_pos_y (d : Dim3) (halo : Bool) (sz : Dim3) (r : ℤ) :
    (halo_pos d halo sz r).y = halo_pos_axis d.y sz.y r halo := rfl

theorem halo_pos_z (d : Dim3) (halo : Bool) (sz : Dim3) (r : ℤ) :
    (halo_pos d halo sz r).z = halo_pos_axis d.z sz.z r halo := rfl

theorem halo_extent_x (d sz : Dim3) (r : ℤ) :
    (halo_extent d sz r).x = if d.x ≠ 0 then r else sz.x := rfl

theorem halo_extent_y (d sz : Dim3) (r : ℤ) :
    (halo_extent d sz r).y = if d.y ≠ 0 then r else sz.y := rfl

theorem halo_extent_z (d sz : Dim3) (r : ℤ) :
    (halo_extent d sz r).z = if d.z ≠ 0 then r else sz.z := rfl

theorem dim3_add_neg (a b : Dim3) : a + -b = a - b := by
  rw [Dim3.ext_iff2]
  simp only [Dim3.add_x, Dim3.add_y, Dim3.add_z, Dim3.neg_x, Dim3.neg_y, Dim3.neg_z,
    Dim3.sub_x, Dim3.sub_y, Dim3.sub_z]
  exact ⟨by ring, by ring, by ring⟩

theorem dim3_neg_neg (a : Dim3) : - -a = a := by
  rw [Dim3.ext_iff2]
  simp only [Dim3.neg_x, Dim3.neg_y, Dim3.neg_z]
  exact ⟨by ring, by ring, by ring⟩

theorem dim3_add_sub_cancel (a b : Dim3) : (a + b) - b = a := by
  rw [Dim3.ext_iff2]
  simp only [Dim3.add_x, Dim3.add_y, Dim3.add_z, Dim3.sub_x, Dim3.sub_y, Dim3.sub_z]
  exact ⟨by ring, by ring, by ring⟩

theorem dim3_add_sub_self (a b : Dim3) : (a + b) - a = b := by
  rw [Dim3.ext_iff2]
  simp only [Dim3.add_x, Dim3.add_y, Dim3.add_z, Dim3.sub_x, Dim3.sub_y, Dim3.sub_z]
  exact ⟨by ring, by ring, by ring⟩

theorem wrap_sub_wrap (g a b : Dim3) : ((a.wrap g) - b).wrap g = (a - b).wrap g := by
  unfold Dim3.wrap
  rw [Dim3.ext_iff2]
  refine ⟨?_, ?_, ?_⟩ <;>
    simp only [Dim3.sub_x, Dim3.sub_y, Dim3.sub_z] <;>
    apply emod_sub_emod_right

/-- A cell belongs to the halo regions of at most one direction. -/
theorem region_dir_unique (sz : Dim3) (r : ℤ) (hr : 0 ≤ r)
    (hsz : 0 ≤ sz.x ∧ 0 ≤ sz.y ∧ 0 ≤ sz.z) (e e2 c : Dim3)
    (he : validDir e) (he2 : validDir e2)
    (h1 : inBox c (halo_pos e true sz r) (halo_extent e sz r))
    (h2 : inBox c (halo_pos e2 true sz r) (halo_extent e2 sz r)) : e = e2 := by
  obtain ⟨ha1, ha2, ha3, ha4, ha5, ha6⟩ := h1
  obtain ⟨hb1, hb2, hb3, hb4, hb5, hb6⟩ := h2
  simp only [halo_pos_x, halo_pos_y, halo_pos_z, halo_extent_x, halo_extent_y,
    halo_extent_z] at ha1 ha2 ha3 ha4 ha5 ha6 hb1 hb2 hb3 hb4 hb5 hb6
  rw [Dim3.ext_iff2]
  exact ⟨axis_region_unique e.x e2.x sz.x r c.x he.1 he2.1 hr hsz.1 ⟨ha1, ha2⟩ ⟨hb1, hb2⟩,
    axis_region_unique e.y e2.y sz.y r c.y he.2.1 he2.2.1 hr hsz.2.1 ⟨ha3, ha4⟩ ⟨hb3, hb4⟩,
    axis_region_unique e.z e2.z sz.z r c.z he.2.2 he2.2.2 hr hsz.2.2 ⟨ha5, ha6⟩ ⟨hb5, hb6⟩⟩

/-- One axis of: an interior-region cell lies in the compute interval. -/
theorem axis_interior_in_compute (dc szc r o : ℤ) (hd : dc.natAbs ≤ 1) (hr : 0 ≤ r)
    (hrs : r ≤ szc) (ho : 0 ≤ o ∧ o < (if dc ≠ 0 then r else szc)) :
    r ≤ halo_pos_axis dc szc r false + o ∧ halo_pos_axis dc szc r false + o < r + szc := by
  have hc : dc = -1 ∨ dc = 0 ∨ dc = 1 := by omega
  rcases hc with h | h | h <;> subst h <;>
    simp only [halo_pos_axis] at ho ⊢ <;> norm_num at ho ⊢ <;> omega

/-- The cell an interior region reads at offset `o` lies in the compute
region. -/
theorem interior_read_in_compute (d : Dim3) (hd : validDir d) (sz : Dim3) (r : ℤ)
    (hr : 0 ≤ r) (hsz : r ≤ sz.x ∧ r ≤ sz.y ∧ r ≤ sz.z) (o : Dim3)
    (ho : 0 ≤ o.x ∧ o.x < (halo_extent d sz r).x ∧ 0 ≤ o.y ∧ o.y < (halo_extent d sz r).y ∧
      0 ≤ o.z ∧ o.z < (halo_extent d sz r).z) :
    inBox (halo_pos d false sz r + o) (halo_pos ⟨0, 0, 0⟩ true sz r)
      (halo_extent ⟨0, 0, 0⟩ sz r) := by
  obtain ⟨h1, h2, h3, h4, h5, h6⟩ := ho
  simp only [halo_extent_x, halo_extent_y, halo_extent_z] at h2 h4 h6
  obtain ⟨hx1, hx2⟩ := axis_interior_in_compute d.x sz.x r o.x hd.1 hr hsz.1 ⟨h1, h2⟩
  obtain ⟨hy1, hy2⟩ := axis_interior_in_compute d.y sz.y r o.y hd.2.1 hr hsz.2.1 ⟨h3, h4⟩
  obtain ⟨hz1, hz2⟩ := axis_interior_in_compute d.z sz.z r o.z hd.2.2 hr hsz.2.2 ⟨h5, h6⟩
  unfold inBox
  rw [halo_pos_x, halo_pos_y, halo_pos_z, halo_extent_x, halo_extent_y, halo_extent_z,
    Dim3.add_x, Dim3.add_y, Dim3.add_z, halo_pos_x, halo_pos_y, halo_pos_z]
  simp only [halo_pos_axis]
  norm_num
  omega

/-- A transport never writes a compute-region cell. -/
theorem sendOp_compute_frame {V : Type} (env : XEnv) (st : State V) (q : Dim3 × Dim3)
    (hv : validDir q.2) (h0 : q.2 ≠ ⟨0, 0, 0⟩) (i : Dim3) (f : ℕ) (c : Dim3)
    (hc : inBox c (halo_pos ⟨0, 0, 0⟩ true (env.sizes i) env.r)
      (halo_extent ⟨0, 0, 0⟩ (env.sizes i) env.r)) :
    sendOp env st q i f c = st i f c := by
  have hcn : env.r ≤ c.x ∧ c.x < env.r + (env.sizes i).x ∧
      env.r ≤ c.y ∧ c.y < env.r + (env.sizes i).y ∧
      env.r ≤ c.z ∧ c.z < env.r + (env.sizes i).z := by
    obtain ⟨k1, k2, k3, k4, k5, k6⟩ := hc
    simp only [halo_pos_x, halo_pos_y, halo_pos_z, halo_extent_x, halo_extent_y,
      halo_extent_z, halo_pos_axis] at k1 k2 k3 k4 k5 k6
    norm_num at k1 k2 k3 k4 k5 k6
    exact ⟨k1, k2, k3, k4, k5, k6⟩
  have hne : q.2.x ≠ 0 ∨ q.2.y ≠ 0 ∨ q.2.z ≠ 0 := by
    by_contra hcon
    push_neg at hcon
    exact h0 (by rw [Dim3.ext_iff2]; exact ⟨hcon.1, hcon.2.1, hcon.2.2⟩)
  have hnot : ¬(i = (q.1 + q.2).wrap env.grid ∧
      inBox c (halo_pos (-q.2) true (env.sizes ((q.1 + q.2).wrap env.grid)) env.r)
        (halo_extent (-q.2) (env.sizes ((q.1 + q.2).wrap env.grid)) env.r)) := by
    rintro ⟨hit, hbox⟩
    rw [← hit] at hbox
    obtain ⟨k1, k2, k3, k4, k5, k6⟩ := hbox
    simp only [halo_pos_x, halo_pos_y, halo_pos_z, halo_extent_x, halo_extent_y,
      halo_extent_z, Dim3.neg_x, Dim3.neg_y, Dim3.neg_z] at k1 k2 k3 k4 k5 k6
    rcases hne with h | h | h
    · exact axis_halo_compute_disjoint (-q.2.x) (env.sizes i).x env.r c.x
        (by simpa using hv.1) (by omega)
        ⟨k1, by simpa only [neg_ne_zero] using k2⟩ ⟨hcn.1, hcn.2.1⟩
    · exact axis_halo_compute_disjoint (-q.2.y) (env.sizes i).y env.r c.y
        (by simpa using hv.2.1) (by omega)
        ⟨k3, by simpa only [neg_ne_zero] using k4⟩ ⟨hcn.2.2.1, hcn.2.2.2.1⟩
    · exact axis_halo_compute_disjoint (-q.2.z) (env.sizes i).z env.r c.z
        (by simpa using hv.2.2) (by omega)
        ⟨k5, by simpa only [neg_ne_zero] using k6⟩ ⟨hcn.2.2.2.2.1, hcn.2.2.2.2.2⟩
  unfold sendOp
  rw [if_neg hnot]

/-- A transport that is not the designated writer of a halo cell leaves the
cell unchanged. -/
theorem sendOp_untouched {V : Type} (env : XEnv) (st : State V) (q : Dim3 × Dim3)
    (hr : 0 ≤ env.r)
    (hsz : ∀ j : Dim3, env.r ≤ (env.sizes j).x ∧ env.r ≤ (env.sizes j).y ∧
      env.r ≤ (env.sizes j).z)
    (hq1 : q.1 ∈ gridIndices env.grid) (hqv : validDir q.2) (hq0 : q.2 ≠ ⟨0, 0, 0⟩)
    (i e : Dim3) (he : validDir e) (f : ℕ) (c : Dim3)
    (hc : inBox c (halo_pos e true (env.sizes i) env.r)
      (halo_extent e (env.sizes i) env.r))
    (hne : q ≠ ((i + e).wrap env.grid, -e)) :
    sendOp env st q i f c = st i f c := by
  have hszi := hsz i
  have hnot : ¬(i = (q.1 + q.2).wrap env.grid ∧
      inBox c (halo_pos (-q.2) true (env.sizes ((q.1 + q.2).wrap env.grid)) env.r)
        (halo_extent (-q.2) (env.sizes ((q.1 + q.2).wrap env.grid)) env.r)) := by
    rintro ⟨hit, hbox⟩
    rw [← hit] at hbox
    have hveq : -q.2 = e := region_dir_unique (env.sizes i) env.r hr
      ⟨by omega, by omega, by omega⟩ (-q.2) e c (validDir_neg _ hqv) he hbox hc
    have hd : q.2 = -e := by rw [← hveq, dim3_neg_neg]
    have hs : q.1 = (i + e).wrap env.grid := by
      have h1 := wrap_add_cancel env.grid q.1 q.2 ((mem_gridIndices _ _).mp hq1)
      rw [← hit, hd] at h1
      have h2 : i - -e = i + e := by rw [← dim3_add_neg i (-e), dim3_neg_neg]
      rw [h2] at h1
      exact h1.symm
    exact hne (by rw [Prod.ext_iff]; exact ⟨hs, hd⟩)
  unfold sendOp
  rw [if_neg hnot]

/-- The designated writer of a halo cell stores the matching interior cell
of the source subdomain (the packed message read back at the same
row-major offset). -/
theorem sendOp_writer_value {V : Type} (env : XEnv) (st : State V) (i e : Dim3)
    (f : ℕ) (c : Dim3)
    (hi : 0 ≤ i.x ∧ i.x < env.grid.x ∧ 0 ≤ i.y ∧ i.y < env.grid.y ∧
      0 ≤ i.z ∧ i.z < env.grid.z)
    (hc : inBox c (halo_pos e true (env.sizes i) env.r)
      (halo_extent e (env.sizes i) env.r))
    (hcompat : halo_extent e (env.sizes i) env.r =
      halo_extent (-e) (env.sizes ((i + e).wrap env.grid)) env.r) :
    sendOp env st ((i + e).wrap env.grid, -e) i f c =
      st ((i + e).wrap env.grid) f
        (halo_pos (-e) false (env.sizes ((i + e).wrap env.grid)) env.r +
          (c - halo_pos e true (env.sizes i) env.r)) := by
  have ht : ((((i + e).wrap env.grid) + -e).wrap env.grid) = i := by
    rw [dim3_add_neg, wrap_sub_wrap, dim3_add_sub_cancel, wrap_of_mem_grid env.grid i hi]
  have hbounds : 0 ≤ (c - halo_pos e true (env.sizes i) env.r).x ∧
      (c - halo_pos e true (env.sizes i) env.r).x < (halo_extent e (env.sizes i) env.r).x ∧
      0 ≤ (c - halo_pos e true (env.sizes i) env.r).y ∧
      (c - halo_pos e true (env.sizes i) env.r).y < (halo_extent e (env.sizes i) env.r).y ∧
      0 ≤ (c - halo_pos e true (env.sizes i) env.r).z ∧
      (c - halo_pos e true (env.sizes i) env.r).z < (halo_extent e (env.sizes i) env.r).z := by
    obtain ⟨k1, k2, k3, k4, k5, k6⟩ := hc
    refine ⟨?_, ?_, ?_, ?_, ?_, ?_⟩ <;>
      simp only [Dim3.sub_x, Dim3.sub_y, Dim3.sub_z] <;> omega
  have hround : unlinZ (halo_extent (-e) (env.sizes ((i + e).wrap env.grid)) env.r)
      (linZ (halo_extent e (env.sizes i) env.r)
        (c - halo_pos e true (env.sizes i) env.r)) =
      c - halo_pos e true (env.sizes i) env.r := by
    rw [← hcompat]
    exact unlinZ_linZ _ _ hbounds
  unfold sendOp
  simp only [ht, dim3_neg_neg]
  rw [if_pos ⟨trivial, hc⟩, hround]

/-- Fold of all transports, seen from one halo cell: the cell ends up
holding the source subdomain's interior value exactly when its designated
writer is among the transports, and is untouched otherwise. -/
theorem foldl_sendOp_halo {V : Type} (env : XEnv)
    (hg : 1 ≤ env.grid.x ∧ 1 ≤ env.grid.y ∧ 1 ≤ env.grid.z)
    (hr : 0 ≤ env.r)
    (hsz : ∀ j : Dim3, env.r ≤ (env.sizes j).x ∧ env.r ≤ (env.sizes j).y ∧
      env.r ≤ (env.sizes j).z)
    (i e : Dim3) (f : ℕ) (c : Dim3)
    (hi : 0 ≤ i.x ∧ i.x < env.grid.x ∧ 0 ≤ i.y ∧ i.y < env.grid.y ∧
      0 ≤ i.z ∧ i.z < env.grid.z)
    (he : validDir e) (he0 : e ≠ ⟨0, 0, 0⟩)
    (hc : inBox c (halo_pos e true (env.sizes i) env.r)
      (halo_extent e (env.sizes i) env.r))
    (hcompat : halo_extent e (env.sizes i) env.r =
      halo_extent (-e) (env.sizes ((i + e).wrap env.grid)) env.r)
    (L : List (Dim3 × Dim3)) (hL : ∀ p ∈ L, p.1 ∈ gridIndices env.grid ∧ p.2 ∈ dirList)
    (st : State V) :
    L.foldl (sendOp env) st i f c =
      if ((i + e).wrap env.grid, -e) ∈ L then
        st ((i + e).wrap env.grid) f
          (halo_pos (-e) false (env.sizes ((i + e).wrap env.grid)) env.r +
            (c - halo_pos e true (env.sizes i) env.r))
      else st i f c := by
  induction L generalizing st with
  | nil => simp
  | cons q t ih =>
    have hLt : ∀ p ∈ t, p.1 ∈ gridIndices env.grid ∧ p.2 ∈ dirList :=
      fun p hp => hL p (List.mem_cons_of_mem q hp)
    have hq := hL q (List.mem_cons_self q t)
    obtain ⟨hqv, hq0⟩ := (mem_dirList q.2).mp hq.2
    have hreadcell : inBox
        (halo_pos (-e) false (env.sizes ((i + e).wrap env.grid)) env.r +
          (c - halo_pos e true (env.sizes i) env.r))
        (halo_pos ⟨0, 0, 0⟩ true (env.sizes ((i + e).wrap env.grid)) env.r)
        (halo_extent ⟨0, 0, 0⟩ (env.sizes ((i + e).wrap env.grid)) env.r) := by
      apply interior_read_in_compute (-e) (validDir_neg e he) _ env.r hr
        (hsz ((i + e).wrap env.grid))
      rw [← hcompat]
      obtain ⟨k1, k2, k3, k4, k5, k6⟩ := hc
      refine ⟨?_, ?_, ?_, ?_, ?_, ?_⟩ <;>
        simp only [Dim3.sub_x, Dim3.sub_y, Dim3.sub_z] <;> omega
    simp only [List.foldl_cons]
    rw [ih hLt (sendOp env st q)]
    by_cases hqw : q = ((i + e).wrap env.grid, -e)
    · by_cases hmem : ((i + e).wrap env.grid, -e) ∈ t
      · rw [if_pos hmem, if_pos (List.mem_cons_of_mem q hmem)]
        exact sendOp_compute_frame env st q hqv hq0 _ f _ hreadcell
      · rw [if_neg hmem, if_pos (hqw ▸ List.mem_cons_self q t)]
        rw [hqw]
        exact sendOp_writer_value env st i e f c hi hc hcompat
    · have huntouched : sendOp env st q i f c = st i f c :=
        sendOp_untouched env st q hr hsz hq.1 hqv hq0 i e he f c hc hqw
      by_cases hmem : ((i + e).wrap env.grid, -e) ∈ t
      · rw [if_pos hmem, if_pos (List.mem_cons_of_mem q hmem)]
        exact sendOp_compute_frame env st q hqv hq0 _ f _ hreadcell
      · rw [if_neg hmem, if_neg ?notmem, huntouched]
        case notmem =>
          intro hcon
          rcases List.mem_cons.mp hcon with h | h
          · exact hqw h.symm
          · exact hmem h

/-- C6: `exchange` leaves every compute-region cell of every subdomain and
every registered field unchanged: every transport writes only halo
rectangles, so only halo bytes may differ after the exchange returns. -/
theorem C6_exchange_preserves_interior {V : Type} (env : XEnv) (st : State V)
    (i : Dim3) (f : ℕ) (c : Dim3)
    (hc : inBox c (halo_pos ⟨0, 0, 0⟩ true (env.sizes i) env.r)
      (halo_extent ⟨0, 0, 0⟩ (env.sizes i) env.r)) :
    exchange env st i f c = st i f c := by
  unfold exchange
  have hgen : ∀ (L : List (Dim3 × Dim3)), (∀ p ∈ L, p.2 ∈ dirList) →
      ∀ st2 : State V, L.foldl (sendOp env) st2 i f c = st2 i f c := by
    intro L
    induction L with
    | nil => intro _ st2; rfl
    | cons q t ih2 =>
      intro hL st2
      simp only [List.foldl_cons]
      rw [ih2 (fun p hp => hL p (List.mem_cons_of_mem q hp))]
      obtain ⟨hqv, hq0⟩ := (mem_dirList q.2).mp (hL q (List.mem_cons_self q t))
      exact sendOp_compute_frame env st2 q hqv hq0 i f c hc
  exact hgen (exchangeOps env.grid)
    (fun p hp => ((mem_exchangeOps env.grid p).mp hp).2) st

/-- C6 witness: a `2×1×1` grid of `2×2×2` subdomains with radius 1; the
compute cell `(1,1,1)` of subdomain `(0,0,0)` keeps its value. -/
theorem C6_exchange_preserves_interior_witness :
    exchange ⟨⟨2, 1, 1⟩, fun _ => ⟨2, 2, 2⟩, 1⟩
        (fun (i : Dim3) (f : ℕ) (c : Dim3) => i.x * 10000 + (f : ℤ) * 1000 + c.x * 100 + c.y * 10 + c.z)
        ⟨0, 0, 0⟩ 0 ⟨1, 1, 1⟩ =
      (fun (i : Dim3) (f : ℕ) (c : Dim3) => i.x * 10000 + (f : ℤ) * 1000 + c.x * 100 + c.y * 10 + c.z)
        (⟨0, 0, 0⟩ : Dim3) 0 ⟨1, 1, 1⟩ :=
  C6_exchange_preserves_interior ⟨⟨2, 1, 1⟩, fun _ => ⟨2, 2, 2⟩, 1⟩
    (fun (i : Dim3) (f : ℕ) (c : Dim3) => i.x * 10000 + (f : ℤ) * 1000 + c.x * 100 + c.y * 10 + c.z)
    ⟨0, 0, 0⟩ 0 ⟨1, 1, 1⟩ (by decide)

/-- C1: after `exchange`, for every subdomain `i`, field `f` and non-zero
direction `d`, the halo region of direction `d` holds, offset for offset,
the interior region of direction `-d` of the subdomain at
`(i + d).wrap(gridSize)` — periodic wrap on all three axes.  The
compatibility hypothesis states that the sender's message length matches
the receiver's halo extent (true whenever the sizes come from the
partition, where neighbor sizes agree on every axis the direction leaves
unchanged). -/
theorem C1_exchange_halo_matches_neighbor {V : Type} (env : XEnv) (st : State V)
    (i d o : Dim3) (f : ℕ)
    (hg : 1 ≤ env.grid.x ∧ 1 ≤ env.grid.y ∧ 1 ≤ env.grid.z)
    (hr : 0 ≤ env.r)
    (hsz : ∀ j : Dim3, env.r ≤ (env.sizes j).x ∧ env.r ≤ (env.sizes j).y ∧
      env.r ≤ (env.sizes j).z)
    (hi : 0 ≤ i.x ∧ i.x < env.grid.x ∧ 0 ≤ i.y ∧ i.y < env.grid.y ∧
      0 ≤ i.z ∧ i.z < env.grid.z)
    (hd : validDir d) (hd0 : d ≠ ⟨0, 0, 0⟩)
    (ho : 0 ≤ o.x ∧ o.x < (halo_extent d (env.sizes i) env.r).x ∧
      0 ≤ o.y ∧ o.y < (halo_extent d (env.sizes i) env.r).y ∧
      0 ≤ o.z ∧ o.z < (halo_extent d (env.sizes i) env.r).z)
    (hcompat : halo_extent d (env.sizes i) env.r =
      halo_extent (-d) (env.sizes ((i + d).wrap env.grid)) env.r) :
    exchange env st i f (halo_pos d true (env.sizes i) env.r + o) =
      st ((i + d).wrap env.grid) f
        (halo_pos (-d) false (env.sizes ((i + d).wrap env.grid)) env.r + o) := by
  obtain ⟨ho1, ho2, ho3, ho4, ho5, ho6⟩ := ho
  have hc : inBox (halo_pos d true (env.sizes i) env.r + o)
      (halo_pos d true (env.sizes i) env.r) (halo_extent d (env.sizes i) env.r) := by
    unfold inBox
    refine ⟨?_, ?_, ?_, ?_, ?_, ?_⟩ <;>
      simp only [Dim3.add_x, Dim3.add_y, Dim3.add_z] <;> omega
  have hmem : ((i + d).wrap env.grid, -d) ∈ exchangeOps env.grid := by
    apply (mem_exchangeOps env.grid _).mpr
    constructor
    · exact (mem_gridIndices env.grid _).mpr (wrap_mem_grid env.grid (i + d) hg)
    · exact (mem_dirList (-d)).mpr
        ⟨validDir_neg d hd, fun hcon => hd0 ((neg_dim3_zero_iff d).mp hcon)⟩
  unfold exchange
  rw [foldl_sendOp_halo env hg hr hsz i d f _ hi hd hd0 hc hcompat
    (exchangeOps env.grid) (fun p hp => (mem_exchangeOps env.grid p).mp hp) st]
  rw [if_pos hmem, dim3_add_sub_self]

/-- C1 witness: the `2×1×1` grid of `2×2×2` subdomains with radius 1,
subdomain `(0,0,0)`, direction `(1,0,0)`, halo offset `(0,1,0)`. -/
theorem C1_exchange_halo_matches_neighbor_witness :
    exchange ⟨⟨2, 1, 1⟩, fun _ => ⟨2, 2, 2⟩, 1⟩
        (fun (i : Dim3) (f : ℕ) (c : Dim3) => i.x * 10000 + (f : ℤ) * 1000 + c.x * 100 + c.y * 10 + c.z)
        ⟨0, 0, 0⟩ 0
        (halo_pos ⟨1, 0, 0⟩ true ((fun _ => (⟨2, 2, 2⟩ : Dim3)) (⟨0, 0, 0⟩ : Dim3)) 1 +
          ⟨0, 1, 0⟩) =
      (fun (i : Dim3) (f : ℕ) (c : Dim3) => i.x * 10000 + (f : ℤ) * 1000 + c.x * 100 + c.y * 10 + c.z)
        (((⟨0, 0, 0⟩ : Dim3) + ⟨1, 0, 0⟩).wrap ⟨2, 1, 1⟩) 0
        (halo_pos (-(⟨1, 0, 0⟩ : Dim3)) false
          ((fun _ => (⟨2, 2, 2⟩ : Dim3))
            (((⟨0, 0, 0⟩ : Dim3) + ⟨1, 0, 0⟩).wrap ⟨2, 1, 1⟩)) 1 + ⟨0, 1, 0⟩) :=
  C1_exchange_halo_matches_neighbor ⟨⟨2, 1, 1⟩, fun _ => ⟨2, 2, 2⟩, 1⟩
    (fun (i : Dim3) (f : ℕ) (c : Dim3) => i.x * 10000 + (f : ℤ) * 1000 + c.x * 100 + c.y * 10 + c.z)
    ⟨0, 0, 0⟩ ⟨1, 0, 0⟩ ⟨0, 1, 0⟩ 0 (by decide) (by decide)
    (fun j => by refine ⟨?_, ?_, ?_⟩ <;> (show (1 : ℤ) ≤ 2; decide))
    (by decide) (by decide) (by decide)
    (by refine ⟨?_, ?_, ?_, ?_, ?_, ?_⟩ <;> decide) (by decide)
